import Mathlib

/-!
Verification development for the `ckeditor5-anchor` package.

The development gives a shallow embedding of the model-document operations
performed by `AnchorCommand.execute` (src/anchorcommand.js),
`UnanchorCommand.execute` (src/unanchorcommand.js) and the selection fixers of
`AnchorEditing` (src/anchorediting.js), over an abstract document model that
mirrors the CKEditor engine interfaces the package consumes
(`findAttributeRange`, `Schema#getValidRanges`, `Writer#setAttribute`,
`Writer#removeAttribute`, `Model#insertContent`, selection attributes).

Modelling conventions:
* A model attribute value is a string or a boolean (`AttrVal`).
* An attribute map is an association list `Attrs`; `setAttr`/`removeAttr`
  keep it first-match deterministic.  Maps are compared literally, so
  documents are assumed to be built with these canonical operations.
* Inline content of a block is a flat list of characters each carrying an
  attribute map (`Doc`).  A CKEditor *text node* is a maximal run of
  characters with equal attribute maps; positions are character offsets, so
  text-node merging never moves a position.  `nodeBeforeAttrs`/`nodeAfterAttrs`
  recover CKEditor's `Position#nodeBefore`/`nodeAfter` (which are `null`
  strictly inside a text node).
* `findStart`/`findEnd` embed `findAttributeRange` from
  ckeditor5-typing/src/utils/findattributerange.js: starting from the caret it
  walks backward and forward while the adjacent content has the given value
  for the attribute (JS `==`, so a missing attribute matches `undefined`).
* Block-level content for the non-collapsed selection branch is a list of
  block elements each carrying its own attribute map, a schema verdict for
  `anchorId`, and inline children (`BDoc`), with ranges `BRange` either on a
  run of top-level blocks or inside one block.
-/

/-- A CKEditor model attribute value: a string (e.g. `anchorId`) or a boolean
(manual decorator attributes). -/
inductive AttrVal where
  | str (s : String)
  | boo (b : Bool)
deriving DecidableEq, Repr

/-- An attribute map, as an association list from attribute name to value. -/
abbrev Attrs := List (String × AttrVal)

/-- Look up an attribute (first match wins). -/
def getAttr : Attrs → String → Option AttrVal
  | [], _ => none
  | (k', v) :: rest, k => if k' = k then some v else getAttr rest k

/-- Whether a node/selection has the attribute (CKEditor `hasAttribute`). -/
def hasAttr (a : Attrs) (k : String) : Bool := (getAttr a k).isSome

/-- Remove an attribute from a map (CKEditor `removeAttribute` on one node). -/
def removeAttr : Attrs → String → Attrs
  | [], _ => []
  | (k', v) :: rest, k => if k' = k then removeAttr rest k else (k', v) :: removeAttr rest k

/-- Set an attribute in a map (CKEditor `setAttribute` on one node). -/
def setAttr (a : Attrs) (k : String) (v : AttrVal) : Attrs :=
  (k, v) :: removeAttr a k

/-- Remove a list of attribute keys in order. -/
def removeKeys (a : Attrs) (ks : List String) : Attrs :=
  ks.foldl removeAttr a

/-- One character of inline content together with its attribute map.  A
CKEditor text node is a maximal run of `CharNode`s with equal maps. -/
structure CharNode where
  ch : Char
  attrs : Attrs
deriving DecidableEq, Repr

/-- Inline content of one block: the flat character sequence. -/
abbrev Doc := List CharNode

/-- Apply `f` to the items with index in `[a, b)` (a writer operation over a
flat range). -/
def mapRange {α : Type} (f : α → α) : List α → Nat → Nat → List α
  | [], _, _ => []
  | x :: rest, a, b =>
      (if a = 0 ∧ 0 < b then f x else x) :: mapRange f rest (a - 1) (b - 1)

/-- Embeds `Writer#setAttribute( key, value, range )` over the character range
`[a, b)`. -/
def setAttrRange (d : Doc) (k : String) (v : AttrVal) (a b : Nat) : Doc :=
  mapRange (fun n => { n with attrs := setAttr n.attrs k v }) d a b

/-- Embeds `Writer#removeAttribute( key, range )` over the character range `[a, b)`. -/
def removeAttrRange (d : Doc) (k : String) (a b : Nat) : Doc :=
  mapRange (fun n => { n with attrs := removeAttr n.attrs k }) d a b

/-- Whether the character at index `i` carries value `v` for attribute `k`
(`v = none` encodes the JS comparison against `undefined`). -/
def matchesAt (d : Doc) (k : String) (v : Option AttrVal) (i : Nat) : Bool :=
  match d.get? i with
  | some n => decide (getAttr n.attrs k = v)
  | none => false

/-- Backward walk of `findAttributeRange`: the start offset of the contiguous
run with value `v` touching position `p` from the left (`p` itself if the
character before `p` does not match). -/
def findStart (d : Doc) (k : String) (v : Option AttrVal) : Nat → Nat
  | 0 => 0
  | p + 1 => if matchesAt d k v p then findStart d k v p else p + 1

/-- Forward walk of `findAttributeRange`, fuelled so that it is structurally
recursive; `fuel = d.length - p` suffices because every step consumes a
matching character. -/
def findEndAux (d : Doc) (k : String) (v : Option AttrVal) : Nat → Nat → Nat
  | 0, p => p
  | fuel + 1, p => if matchesAt d k v p then findEndAux d k v fuel (p + 1) else p

/-- Forward walk of `findAttributeRange`: the end offset of the contiguous run
with value `v` touching position `p` from the right. -/
def findEnd (d : Doc) (k : String) (v : Option AttrVal) (p : Nat) : Nat :=
  findEndAux d k v (d.length - p) p

/-- Embeds `findAttributeRange( position, key, value, model )` as the pair of offsets
of the maximal contiguous run around `p` sharing value `v` for `k`. -/
def findAttributeRange (d : Doc) (k : String) (v : Option AttrVal) (p : Nat) : Nat × Nat :=
  (findStart d k v p, findEnd d k v p)

/-- Whether offset `p` is a node boundary of `d`, i.e. not strictly inside a
text node (a maximal run of characters with equal attribute maps). -/
def nodeBoundary (d : Doc) (p : Nat) : Bool :=
  match d.get? (p - 1), d.get? p with
  | some n1, some n2 => decide (p = 0) || decide (n1.attrs ≠ n2.attrs)
  | _, _ => true

/-- Embeds `Position#nodeBefore` of offset `p`, reduced to the attribute map of the
text node ending at `p`; `none` when `p` is at the start or strictly inside a
text node. -/
def nodeBeforeAttrs (d : Doc) (p : Nat) : Option Attrs :=
  if p = 0 then none
  else if nodeBoundary d p then (d.get? (p - 1)).map CharNode.attrs
  else none

/-- Embeds `Position#nodeAfter` of offset `p`, reduced to the attribute map of the
text node starting at `p`; `none` at the end of `d` or strictly inside a text
node. -/
def nodeAfterAttrs (d : Doc) (p : Nat) : Option Attrs :=
  if nodeBoundary d p then (d.get? p).map CharNode.attrs else none

/-- The attributes a collapsed document selection acquires at offset `p`
(CKEditor `DocumentSelection#_getSurroundingAttributes`: the containing text
node, else the text node before, else the text node after). -/
def surroundingAttrs (d : Doc) (p : Nat) : Attrs :=
  if p = 0 then
    match d.get? 0 with
    | some n => n.attrs
    | none => []
  else
    match d.get? (p - 1) with
    | some n => n.attrs
    | none =>
      match d.get? p with
      | some n => n.attrs
      | none => []

/-- Editor state relevant to a collapsed selection: inline content of the
block holding the caret, the caret offset, and the selection's own (typing)
attributes. -/
structure EditorState where
  doc : Doc
  selPos : Nat
  selAttrs : Attrs
deriving DecidableEq, Repr

/-- The decorator-toggle argument of `AnchorCommand.execute`
(`manualDecoratorIds`), as an ordered key/boolean list (JS object iteration
order). -/
abbrev DecIds := List (String × Bool)

/-- The names pushed onto `truthyManualDecorators` in `execute`. -/
def truthyManualDecorators (m : DecIds) : List String :=
  (m.filter (fun p => p.2)).map Prod.fst

/-- The names pushed onto `falsyManualDecorators` in `execute`. -/
def falsyManualDecorators (m : DecIds) : List String :=
  (m.filter (fun p => !p.2)).map Prod.fst

/-- Attribute map of the text node inserted by the collapsed, not-in-run
branch of `AnchorCommand.execute`: the selection's attributes, then
`anchorId`, then every truthy decorator. -/
def insertedTextAttrs (selAttrs : Attrs) (id : String) (m : DecIds) : Attrs :=
  (truthyManualDecorators m).foldl (fun a k => setAttr a k (AttrVal.boo true))
    (setAttr selAttrs "anchorId" (AttrVal.str id))

/-- The body of `model.change` in `AnchorCommand.execute` for a collapsed
selection, before the final `removeSelectionAttribute` loop.  Mirrors
src/anchorcommand.js lines 166-204: when the selection has `anchorId`, update
the run found by `findAttributeRange` and put the caret after it; otherwise,
for a non-empty `id`, insert a text node with the composed attributes and put
the caret at the end position returned by `insertContent` (a character
offset, hence stable under text-node merging). -/
def anchorExecuteMain (st : EditorState) (id : String) (m : DecIds) : EditorState :=
  let t := truthyManualDecorators m
  let f := falsyManualDecorators m
  if hasAttr st.selAttrs "anchorId" then
    let v := getAttr st.selAttrs "anchorId"
    let s := findStart st.doc "anchorId" v st.selPos
    let e := findEnd st.doc "anchorId" v st.selPos
    let d1 := setAttrRange st.doc "anchorId" (AttrVal.str id) s e
    let d2 := t.foldl (fun d item => setAttrRange d item (AttrVal.boo true) s e) d1
    let d3 := f.foldl (fun d item => removeAttrRange d item s e) d2
    { doc := d3, selPos := e, selAttrs := surroundingAttrs d3 e }
  else if id ≠ "" then
    let as := insertedTextAttrs st.selAttrs id m
    let d1 := st.doc.take st.selPos ++ id.data.map (fun c => ⟨c, as⟩) ++ st.doc.drop st.selPos
    let p1 := st.selPos + id.length
    { doc := d1, selPos := p1, selAttrs := surroundingAttrs d1 p1 }
  else
    st

/-- Embeds `AnchorCommand.execute( id, manualDecoratorIds )` for a collapsed
selection: the main branch followed by the final loop removing `anchorId` and
the mentioned decorators from the selection's own attributes
(src/anchorcommand.js lines 206-210). -/
def anchorExecuteCollapsed (st : EditorState) (id : String) (m : DecIds) : EditorState :=
  let st1 := anchorExecuteMain st id m
  { st1 with
    selAttrs := removeKeys st1.selAttrs
      ("anchorId" :: (truthyManualDecorators m ++ falsyManualDecorators m)) }

/-- Embeds `UnanchorCommand.execute()` for a collapsed selection
(src/unanchorcommand.js): one `model.change` block removing `anchorId` and
every registered manual decorator attribute from the run found by
`findAttributeRange` at the caret with the selection's current `anchorId`
value. -/
def unanchorCollapsed (st : EditorState) (registered : List String) : EditorState :=
  let v := getAttr st.selAttrs "anchorId"
  let r := findAttributeRange st.doc "anchorId" v st.selPos
  let d1 := removeAttrRange st.doc "anchorId" r.1 r.2
  let d2 := registered.foldl (fun d k => removeAttrRange d k r.1 r.2) d1
  { st with doc := d2 }

/-- One inline child of a block element, with its own schema verdict for
`anchorId` (`allows` embeds `Schema#checkAttribute( item, 'anchorId' )`). -/
structure InlineItem where
  ch : Char
  attrs : Attrs
  allows : Bool
deriving DecidableEq, Repr

/-- A top-level block element (e.g. a paragraph or an image): name, its own
attribute map, its own schema verdict for `anchorId`, and inline children. -/
structure BlockItem where
  name : String
  attrs : Attrs
  allows : Bool
  children : List InlineItem
deriving DecidableEq, Repr

/-- A document as a sequence of top-level block elements. -/
abbrev BDoc := List BlockItem

/-- A model range in a `BDoc`: either over the top-level blocks `[a, b)`, or
over the children `[a, b)` of block `i`. -/
inductive BRange where
  | top (a b : Nat)
  | inner (i a b : Nat)
deriving DecidableEq, Repr

/-- A model position in a `BDoc`: at top level before block `p`, or inside
block `i` before child `p`. -/
inductive BPos where
  | top (p : Nat)
  | inner (i p : Nat)
deriving DecidableEq, Repr

/-- Strict document order on positions (deeper positions inside block `i` sit
strictly between the top-level positions `i` and `i + 1`). -/
def bposLt : BPos → BPos → Bool
  | BPos.top p, BPos.top q => decide (p < q)
  | BPos.top p, BPos.inner i _ => decide (p ≤ i)
  | BPos.inner i _, BPos.top q => decide (i < q)
  | BPos.inner i p, BPos.inner j q => decide (i < j) || (decide (i = j) && decide (p < q))

/-- Start position of a range. -/
def BRange.startPos : BRange → BPos
  | BRange.top a _ => BPos.top a
  | BRange.inner i a _ => BPos.inner i a

/-- End position of a range. -/
def BRange.endPos : BRange → BPos
  | BRange.top _ b => BPos.top b
  | BRange.inner i _ b => BPos.inner i b

/-- Embeds `Range#containsPosition` (strictly between start and end). -/
def containsPosition (r : BRange) (p : BPos) : Bool :=
  bposLt r.startPos p && bposLt p r.endPos

/-- Embeds `Range#containsRange` with default (strict) semantics, as used by
`AnchorCommand._isRangeToUpdate`. -/
def containsRange (r s : BRange) : Bool :=
  containsPosition r s.startPos && containsPosition r s.endPos

/-- Embeds `AnchorCommand._isRangeToUpdate( range, allowedRanges )`
(src/anchorcommand.js lines 281-290): false when some allowed range contains
the range. -/
def isRangeToUpdate (r : BRange) (allowed : List BRange) : Bool :=
  !(allowed.any (fun ar => containsRange ar r))

/-- Inner loop of `Schema#_getValidRangesForRange` over the children of one
block: maximal runs of children on which the attribute is allowed, as
`(start, end)` child-offset pairs. -/
def validRunsAux : List InlineItem → Nat → Nat → List (Nat × Nat)
  | [], j, start => if start ≠ j then [(start, j)] else []
  | c :: rest, j, start =>
      if c.allows then validRunsAux rest (j + 1) start
      else (if start ≠ j then [(start, j)] else []) ++ validRunsAux rest (j + 1) (j + 1)

/-- The schema-valid ranges inside block `i` with children `cs`. -/
def validInnerRanges (cs : List InlineItem) (i : Nat) : List BRange :=
  (validRunsAux cs 0 0).map (fun p => BRange.inner i p.1 p.2)

/-- Embeds `Schema#_getValidRangesForRange` over top-level blocks: walk the blocks of
the range shallowly, recursing into each element for its inner valid ranges
and accumulating maximal runs of blocks that themselves accept the attribute.
`n` is the number of blocks left to visit (`b - i`). -/
def getValidAux (d : BDoc) : Nat → Nat → Nat → List BRange
  | 0, i, start => if start ≠ i then [BRange.top start i] else []
  | n + 1, i, start =>
      match d.get? i with
      | none => if start ≠ i then [BRange.top start i] else []
      | some item =>
          validInnerRanges item.children i ++
          (if item.allows then getValidAux d n (i + 1) start
           else (if start ≠ i then [BRange.top start i] else []) ++ getValidAux d n (i + 1) (i + 1))

/-- Embeds `model.schema.getValidRanges( selection.getRanges(), 'anchorId' )` for a
block-aligned selection over blocks `[a, b)`. -/
def getValidRangesTop (d : BDoc) (a b : Nat) : List BRange :=
  getValidAux d (b - a) a a

/-- The `allowedRanges` loop of the non-collapsed branch
(src/anchorcommand.js lines 217-223): a whole-element range for each selected
block on which the schema allows `anchorId`. -/
def allowedRangesAux : BDoc → Nat → Nat → Nat → List BRange
  | [], _, _, _ => []
  | blk :: rest, i, a, b =>
      (if a ≤ i ∧ i < b ∧ blk.allows then [BRange.top i (i + 1)] else []) ++
      allowedRangesAux rest (i + 1) a b

/-- All whole-element allowed ranges for the selection over blocks `[a, b)`. -/
def allowedRanges (d : BDoc) (a b : Nat) : List BRange :=
  allowedRangesAux d 0 a b

/-- Computes `rangesToUpdate` of the non-collapsed branch: the allowed whole-element
ranges plus every schema-valid range not contained in an allowed range
(src/anchorcommand.js lines 226-234). -/
def rangesToUpdate (d : BDoc) (a b : Nat) : List BRange :=
  let ranges := getValidRangesTop d a b
  let allowed := allowedRanges d a b
  allowed ++ ranges.filter (fun r => isRangeToUpdate r allowed)

/-- Apply an attribute-map update to every item covered by a range, shallowly:
a top range updates the block elements themselves, an inner range updates the
children of its block. -/
def applyOnBRange (d : BDoc) (r : BRange) (f : Attrs → Attrs) : BDoc :=
  match r with
  | BRange.top a b => mapRange (fun blk => { blk with attrs := f blk.attrs }) d a b
  | BRange.inner i a b =>
      mapRange
        (fun blk =>
          let cs := mapRange (fun c => { c with attrs := f c.attrs }) blk.children a b
          { blk with children := cs })
        d i (i + 1)

/-- Embeds `Writer#setAttribute` over a `BRange`. -/
def setAttrOnBRange (d : BDoc) (k : String) (v : AttrVal) (r : BRange) : BDoc :=
  applyOnBRange d r (fun a => setAttr a k v)

/-- Embeds `Writer#removeAttribute` over a `BRange`. -/
def removeAttrOnBRange (d : BDoc) (k : String) (r : BRange) : BDoc :=
  applyOnBRange d r (fun a => removeAttr a k)

/-- The loop body of the non-collapsed branch of `AnchorCommand.execute` for
one range (src/anchorcommand.js lines 236-246): set `anchorId`, set the
truthy decorators, remove the falsy decorators. -/
def anchorRangeStep (id : String) (t f : List String) (d : BDoc) (r : BRange) : BDoc :=
  let d1 := setAttrOnBRange d "anchorId" (AttrVal.str id) r
  let d2 := t.foldl (fun d k => setAttrOnBRange d k (AttrVal.boo true) r) d1
  f.foldl (fun d k => removeAttrOnBRange d k r) d2

/-- The non-collapsed branch of `AnchorCommand.execute`
(src/anchorcommand.js lines 211-247): apply `anchorId` and the decorator
toggles over every range in `rangesToUpdate`. -/
def anchorExecuteNonCollapsed (d : BDoc) (a b : Nat) (id : String) (m : DecIds) : BDoc :=
  (rangesToUpdate d a b).foldl
    (anchorRangeStep id (truthyManualDecorators m) (falsyManualDecorators m)) d

/-- The loop body of `UnanchorCommand.execute` for one range: remove
`anchorId`, then every registered manual decorator attribute. -/
def unanchorRangeStep (registered : List String) (d : BDoc) (r : BRange) : BDoc :=
  registered.foldl (fun d k => removeAttrOnBRange d k r)
    (removeAttrOnBRange d "anchorId" r)

/-- Embeds `UnanchorCommand.execute()` for a non-collapsed selection over blocks
`[a, b)`: remove `anchorId` and every registered manual decorator from every
schema-valid range of the selection, in one `model.change` block. -/
def unanchorNonCollapsed (d : BDoc) (a b : Nat) (registered : List String) : BDoc :=
  (getValidRangesTop d a b).foldl (unanchorRangeStep registered) d

/-- A selection-attribute writer operation, used to distinguish mutations done
directly in a notification callback from mutations enqueued for after the
triggering change (`model.enqueueChange`). -/
inductive SelWOp where
  | removeSelAttr (k : String)
deriving DecidableEq, Repr

/-- Embeds `removeAnchorAttributesFromSelection( writer, manualDecorators )`
(src/anchorediting.js): remove `anchorId` and every registered manual
decorator attribute from the selection, as an operation list. -/
def removeAnchorAttributesFromSelectionOps (registered : List String) : List SelWOp :=
  SelWOp.removeSelAttr "anchorId" :: registered.map SelWOp.removeSelAttr

/-- Apply selection-attribute operations to the selection's attribute map. -/
def applySelWOps (a : Attrs) : List SelWOp → Attrs
  | [] => a
  | SelWOp.removeSelAttr k :: rest => applySelWOps (removeAttr a k) rest

/-- The `insertContent` listener of
`AnchorEditing._enableInsertContentSelectionAttributesFixer`
(src/anchorediting.js lines 226-303), as the selection-attribute map it
leaves behind: `d` and `p` are the document and the selection anchor after
the insertion, `selAttrs` the selection's attributes, `registered` the
registered manual decorator names.  The early returns follow the source:
selection without `anchorId`, no node before the anchor, node before without
`anchorId`, or a node after the anchor carrying `anchorId`. -/
def insertContentSelectionFixer (d : Doc) (p : Nat) (selAttrs : Attrs)
    (registered : List String) : Attrs :=
  if ¬ hasAttr selAttrs "anchorId" then selAttrs
  else
    match nodeBeforeAttrs d p with
    | none => selAttrs
    | some nb =>
      if ¬ hasAttr nb "anchorId" then selAttrs
      else
        match nodeAfterAttrs d p with
        | some na =>
            if hasAttr na "anchorId" then selAttrs
            else applySelWOps selAttrs (removeAnchorAttributesFromSelectionOps registered)
        | none => applySelWOps selAttrs (removeAnchorAttributesFromSelectionOps registered)

/-- Value of `keyCodes.backspace` from ckeditor5-utils/src/keyboard.js. -/
def keyCodes_backspace : Nat := 8

/-- Value of `keyCodes.delete` (forward delete) from ckeditor5-utils/src/keyboard.js. -/
def keyCodes_forwardDelete : Nat := 46

/-- JS truthiness of an attribute value, for the `if ( !anchorId )` guard. -/
def jsTruthy : Option AttrVal → Bool
  | none => false
  | some (AttrVal.str s) => s ≠ ""
  | some (AttrVal.boo b) => b

/-- The flags owned by `AnchorEditing._handleDeleteContentAfterAnchor`. -/
structure DeleteFixerFlags where
  shouldPreserveAttributes : Bool
  hasBackspacePressed : Bool
deriving DecidableEq, Repr

/-- The `view.document#delete` listener of `_handleDeleteContentAfterAnchor`
(src/anchorediting.js lines 467-469): record whether the pressed key was
Backspace. -/
def onDeleteKey (flags : DeleteFixerFlags) (domKeyCode : Nat) : DeleteFixerFlags :=
  { flags with hasBackspacePressed := domKeyCode == keyCodes_backspace }

/-- The `shouldPreserveAttributes` value computed by the high-priority
`deleteContent` listener (src/anchorediting.js lines 473-489): the selection
carries a truthy `anchorId` and its position is strictly inside the run found
by `findAttributeRange`, or equals the run's end. -/
def shouldPreserveAfterDelete (st : EditorState) : Bool :=
  let anchorId := getAttr st.selAttrs "anchorId"
  if ¬ jsTruthy anchorId then false
  else
    let p := st.selPos
    let r := findAttributeRange st.doc "anchorId" anchorId p
    (decide (r.1 < p) && decide (p < r.2)) || p == r.2

/-- The high-priority `deleteContent` listener: reset the flag, then compute
it from the pre-deletion selection. -/
def onDeleteContentHigh (flags : DeleteFixerFlags) (st : EditorState) : DeleteFixerFlags :=
  { flags with shouldPreserveAttributes := shouldPreserveAfterDelete st }

/-- The low-priority `deleteContent` listener (src/anchorediting.js lines
492-509).  Output: the new flags, the selection operations performed directly
inside the callback (always none), and the change blocks enqueued with
`model.enqueueChange` to run after the triggering change completes. -/
def onDeleteContentLow (flags : DeleteFixerFlags) (registered : List String) :
    DeleteFixerFlags × List SelWOp × List (List SelWOp) :=
  if ¬ flags.hasBackspacePressed then (flags, [], [])
  else
    let flags' := { flags with hasBackspacePressed := false }
    if flags'.shouldPreserveAttributes then (flags', [], [])
    else (flags', [], [removeAnchorAttributesFromSelectionOps registered])

/-- One full delete interaction as observed by
`_handleDeleteContentAfterAnchor`: the `delete` key event with `domKeyCode`,
then the `deleteContent` notification with the pre-deletion state `st`
(high-priority listener before the deletion, low-priority listener after). -/
def deleteContentSequence (domKeyCode : Nat) (st : EditorState)
    (registered : List String) : DeleteFixerFlags × List SelWOp × List (List SelWOp) :=
  let f1 := onDeleteKey { shouldPreserveAttributes := false, hasBackspacePressed := false } domKeyCode
  let f2 := onDeleteContentHigh f1 st
  onDeleteContentLow f2 registered

/-- Prefix test on character lists (for the `EXTERNAL_LINKS_REGEXP` model). -/
def listHasPre : List Char → List Char → Bool
  | [], _ => true
  | _ :: _, [] => false
  | a :: as, b :: bs => a = b && listHasPre as bs

/-- Prefix test on strings. -/
def strHasPre (pre s : String) : Bool := listHasPre pre.data s.data

/-- Embeds `EXTERNAL_LINKS_REGEXP.test( url )` for
`EXTERNAL_LINKS_REGEXP = /^(https?:)?\/\//` (src/anchorediting.js line 28):
the optional group matches `https:` or `http:` (or is empty), then `//` must
follow. -/
def EXTERNAL_LINKS_REGEXP_test (url : String) : Bool :=
  (strHasPre "https:" url && listHasPre "//".data (url.data.drop 6)) ||
  (strHasPre "http:" url && listHasPre "//".data (url.data.drop 5)) ||
  strHasPre "//" url

/-- An automatic decorator definition as stored in the command's
`automaticDecorators` collection. -/
structure AutoDecorator where
  id : String
  callback : String → Bool
  attributes : List (String × String)

/-- The built-in external-anchor decorator added by
`_enableAutomaticDecorators` when `anchor.addTargetToExternalAnchors` is set
(src/anchorediting.js lines 145-155). -/
def externalAnchorDecorator : AutoDecorator :=
  { id := "anchorIsExternal"
    callback := EXTERNAL_LINKS_REGEXP_test
    attributes := [("target", "_blank"), ("rel", "noopener noreferrer")] }

/-- Embeds `AnchorEditing._enableAutomaticDecorators` (src/anchorediting.js lines
137-162): the automatic decorators registered on the command, given the
`addTargetToExternalAnchors` configuration flag and the configured automatic
definitions. -/
def enableAutomaticDecorators (addTargetToExternalAnchors : Bool)
    (defs : List AutoDecorator) : List AutoDecorator :=
  (if addTargetToExternalAnchors then [externalAnchorDecorator] else []) ++ defs

/-! ### Lemmas about attribute maps -/

theorem getAttr_removeAttr (a : Attrs) (k' k : String) :
    getAttr (removeAttr a k') k = if k' = k then none else getAttr a k := by
  induction a with
  | nil => simp [removeAttr, getAttr]
  | cons hd tl ih =>
      obtain ⟨k1, v1⟩ := hd
      by_cases h1 : k1 = k' <;> by_cases h2 : k1 = k <;> by_cases h3 : k' = k <;>
        simp_all [removeAttr, getAttr]

theorem getAttr_setAttr (a : Attrs) (k' k : String) (v : AttrVal) :
    getAttr (setAttr a k' v) k = if k' = k then some v else getAttr a k := by
  by_cases h : k' = k <;> simp [setAttr, getAttr, h, getAttr_removeAttr]

theorem getAttr_removeKeys (a : Attrs) (ks : List String) (k : String) :
    getAttr (removeKeys a ks) k = if k ∈ ks then none else getAttr a k := by
  induction ks generalizing a with
  | nil => simp [removeKeys]
  | cons hd tl ih =>
      rw [show removeKeys a (hd :: tl) = removeKeys (removeAttr a hd) tl from rfl, ih]
      by_cases h : k ∈ tl
      · simp [h]
      · rw [getAttr_removeAttr]
        by_cases h2 : hd = k <;> simp [h, h2, List.mem_cons]
        rw [if_neg (fun h3 => h2 h3.symm)]

theorem getAttr_foldl_setAttr_not_mem (l : List String) (a : Attrs) (v : AttrVal)
    (k : String) (h : k ∉ l) :
    getAttr (l.foldl (fun a k' => setAttr a k' v) a) k = getAttr a k := by
  induction l generalizing a with
  | nil => rfl
  | cons hd tl ih =>
      simp only [List.foldl_cons]
      rw [ih _ (by intro hmem; exact h (List.mem_cons_of_mem _ hmem)),
        getAttr_setAttr, if_neg (by intro he; exact h (he ▸ List.mem_cons_self _ _))]

theorem getAttr_foldl_setAttr_mem (l : List String) (a : Attrs) (v : AttrVal)
    (k : String) (h : k ∈ l) :
    getAttr (l.foldl (fun a k' => setAttr a k' v) a) k = some v := by
  induction l generalizing a with
  | nil => cases h
  | cons hd tl ih =>
      simp only [List.foldl_cons]
      by_cases hm : k ∈ tl
      · exact ih _ hm
      · have he : hd = k := by
          rcases List.mem_cons.mp h with h1 | h2
          · exact h1.symm
          · exact absurd h2 hm
        rw [getAttr_foldl_setAttr_not_mem _ _ _ _ hm, getAttr_setAttr, if_pos he]

theorem getAttr_foldl_removeAttr_not_mem (l : List String) (a : Attrs)
    (k : String) (h : k ∉ l) :
    getAttr (l.foldl removeAttr a) k = getAttr a k := by
  induction l generalizing a with
  | nil => rfl
  | cons hd tl ih =>
      simp only [List.foldl_cons]
      rw [ih _ (by intro hmem; exact h (List.mem_cons_of_mem _ hmem)),
        getAttr_removeAttr, if_neg (by intro he; exact h (he ▸ List.mem_cons_self _ _))]

theorem getAttr_foldl_removeAttr_mem (l : List String) (a : Attrs)
    (k : String) (h : k ∈ l) :
    getAttr (l.foldl removeAttr a) k = none := by
  induction l generalizing a with
  | nil => cases h
  | cons hd tl ih =>
      simp only [List.foldl_cons]
      by_cases hm : k ∈ tl
      · exact ih _ hm
      · have he : hd = k := by
          rcases List.mem_cons.mp h with h1 | h2
          · exact h1.symm
          · exact absurd h2 hm
        rw [getAttr_foldl_removeAttr_not_mem _ _ _ hm, getAttr_removeAttr, if_pos he]

theorem applySelWOps_eq_removeKeys (a : Attrs) (ops : List SelWOp) :
    applySelWOps a ops = removeKeys a (ops.map (fun op => match op with
      | SelWOp.removeSelAttr k => k)) := by
  induction ops generalizing a with
  | nil => rfl
  | cons hd tl ih =>
      cases hd with
      | removeSelAttr k1 =>
          show applySelWOps (removeAttr a k1) tl = _
          rw [ih]
          rfl

theorem getAttr_applySelWOps_removeAnchor (a : Attrs) (registered : List String) (k : String) :
    getAttr (applySelWOps a (removeAnchorAttributesFromSelectionOps registered)) k =
      if k = "anchorId" ∨ k ∈ registered then none else getAttr a k := by
  rw [applySelWOps_eq_removeKeys, getAttr_removeKeys]
  have hmap : (List.map (fun op => match op with | SelWOp.removeSelAttr k => k)
      (removeAnchorAttributesFromSelectionOps registered)) = "anchorId" :: registered := by
    show _ :: List.map _ (registered.map SelWOp.removeSelAttr) = _
    rw [List.map_map]
    congr 1
    induction registered with
    | nil => rfl
    | cons hd tl ih2 => simp [Function.comp, ih2]
  rw [hmap]
  by_cases h : k = "anchorId" <;> by_cases h2 : k ∈ registered <;> simp [h, h2]

/-! ### Lemmas about `mapRange` and range operations -/

theorem mapRange_length {α : Type} (f : α → α) (l : List α) (a b : Nat) :
    (mapRange f l a b).length = l.length := by
  induction l generalizing a b with
  | nil => rfl
  | cons x rest ih => simp [mapRange, ih]

theorem mapRange_get? {α : Type} (f : α → α) (l : List α) (a b i : Nat) :
    (mapRange f l a b).get? i =
      (l.get? i).map (fun x => if a ≤ i ∧ i < b then f x else x) := by
  induction l generalizing a b i with
  | nil => simp [mapRange]
  | cons x rest ih =>
      cases i with
      | zero =>
          simp only [mapRange, List.get?]
          by_cases h1 : a = 0 ∧ 0 < b
          · simp [h1.1, h1.2, Nat.le_refl]
          · have : ¬ (a ≤ 0 ∧ 0 < b) := by
              intro h2
              exact h1 ⟨Nat.le_zero.mp h2.1, h2.2⟩
            simp [h1, this]
      | succ j =>
          simp only [mapRange, List.get?]
          rw [ih]
          have hiff : (a - 1 ≤ j ∧ j < b - 1) ↔ (a ≤ j + 1 ∧ j + 1 < b) := by omega
          simp only [hiff]

theorem mapRange_comp {α : Type} (f g : α → α) (l : List α) (a b : Nat) :
    mapRange g (mapRange f l a b) a b = mapRange (fun x => g (f x)) l a b := by
  induction l generalizing a b with
  | nil => rfl
  | cons x rest ih =>
      simp only [mapRange]
      by_cases h : a = 0 ∧ 0 < b <;> simp [h, ih]

theorem mapRange_congrFn {α : Type} (f g : α → α) (l : List α) (a b : Nat)
    (h : ∀ x, f x = g x) : mapRange f l a b = mapRange g l a b := by
  induction l generalizing a b with
  | nil => rfl
  | cons x rest ih =>
      simp only [mapRange]
      rw [ih, h x]

theorem foldl_mapRange {α β : Type} (ks : List β) (h : β → α → α) (l : List α)
    (a b : Nat) (f0 : α → α) :
    ks.foldl (fun l k => mapRange (h k) l a b) (mapRange f0 l a b) =
      mapRange (fun x => ks.foldl (fun y k => h k y) (f0 x)) l a b := by
  induction ks generalizing f0 with
  | nil => rfl
  | cons k1 rest ih =>
      simp only [List.foldl_cons]
      rw [mapRange_comp, ih]

/-! ### Lemmas about the decorator partition -/

theorem mem_truthy_of_mem (m : DecIds) (k : String) (h : (k, true) ∈ m) :
    k ∈ truthyManualDecorators m := by
  simp only [truthyManualDecorators, List.mem_map, List.mem_filter]
  exact ⟨(k, true), ⟨h, rfl⟩, rfl⟩

theorem mem_falsy_of_mem (m : DecIds) (k : String) (h : (k, false) ∈ m) :
    k ∈ falsyManualDecorators m := by
  simp only [falsyManualDecorators, List.mem_map, List.mem_filter]
  exact ⟨(k, false), ⟨h, rfl⟩, rfl⟩

theorem not_mem_truthy (m : DecIds) (k : String) (h : k ∉ m.map Prod.fst) :
    k ∉ truthyManualDecorators m := by
  intro hmem
  simp only [truthyManualDecorators, List.mem_map, List.mem_filter] at hmem
  obtain ⟨p, ⟨hp, _⟩, hfst⟩ := hmem
  exact h (List.mem_map.mpr ⟨p, hp, hfst⟩)

theorem not_mem_falsy (m : DecIds) (k : String) (h : k ∉ m.map Prod.fst) :
    k ∉ falsyManualDecorators m := by
  intro hmem
  simp only [falsyManualDecorators, List.mem_map, List.mem_filter] at hmem
  obtain ⟨p, ⟨hp, _⟩, hfst⟩ := hmem
  exact h (List.mem_map.mpr ⟨p, hp, hfst⟩)

theorem eq_of_mem_nodup_keys (m : DecIds) (k : String) (b1 b2 : Bool)
    (hnd : (m.map Prod.fst).Nodup) (h1 : (k, b1) ∈ m) (h2 : (k, b2) ∈ m) : b1 = b2 := by
  induction m with
  | nil => cases h1
  | cons hd tl ih =>
      obtain ⟨hk, hb⟩ := hd
      simp only [List.map_cons, List.nodup_cons] at hnd
      rcases List.mem_cons.mp h1 with he1 | ht1 <;> rcases List.mem_cons.mp h2 with he2 | ht2
      · rw [Prod.mk.injEq] at he1 he2
        rw [he1.2, he2.2]
      · exfalso
        rw [Prod.mk.injEq] at he1
        exact hnd.1 (he1.1 ▸ List.mem_map.mpr ⟨(k, b2), ht2, rfl⟩)
      · exfalso
        rw [Prod.mk.injEq] at he2
        exact hnd.1 (he2.1 ▸ List.mem_map.mpr ⟨(k, b1), ht1, rfl⟩)
      · exact ih hnd.2 ht1 ht2

theorem not_mem_falsy_of_true (m : DecIds) (k : String)
    (hnd : (m.map Prod.fst).Nodup) (h : (k, true) ∈ m) :
    k ∉ falsyManualDecorators m := by
  intro hmem
  simp only [falsyManualDecorators, List.mem_map, List.mem_filter] at hmem
  obtain ⟨⟨k2, b2⟩, ⟨hp, hb⟩, hfst⟩ := hmem
  simp only at hfst hb
  subst hfst
  have : true = b2 := eq_of_mem_nodup_keys m k2 true b2 hnd h hp
  rw [← this] at hb
  simp at hb

theorem not_mem_truthy_of_false (m : DecIds) (k : String)
    (hnd : (m.map Prod.fst).Nodup) (h : (k, false) ∈ m) :
    k ∉ truthyManualDecorators m := by
  intro hmem
  simp only [truthyManualDecorators, List.mem_map, List.mem_filter] at hmem
  obtain ⟨⟨k2, b2⟩, ⟨hp, hb⟩, hfst⟩ := hmem
  simp only at hfst hb
  subst hfst
  have : false = b2 := eq_of_mem_nodup_keys m k2 false b2 hnd h hp
  rw [← this] at hb
  simp at hb

/-! ### Characterization of the collapsed in-run branch -/

/-- The per-character attribute update performed over the run by the collapsed
in-run branch: set `anchorId` to the new id, set the truthy decorators, remove
the falsy decorators. -/
def inRunUpdate (id : String) (m : DecIds) (a : Attrs) : Attrs :=
  (falsyManualDecorators m).foldl removeAttr
    ((truthyManualDecorators m).foldl (fun y k => setAttr y k (AttrVal.boo true))
      (setAttr a "anchorId" (AttrVal.str id)))

theorem foldl_node_setAttr (t : List String) (v : AttrVal) (n : CharNode) :
    t.foldl (fun n k => { n with attrs := setAttr n.attrs k v }) n =
      { n with attrs := t.foldl (fun a k => setAttr a k v) n.attrs } := by
  induction t generalizing n with
  | nil => rfl
  | cons hd tl ih => simp only [List.foldl_cons]; rw [ih]

theorem foldl_node_removeAttr (t : List String) (n : CharNode) :
    t.foldl (fun n k => { n with attrs := removeAttr n.attrs k }) n =
      { n with attrs := t.foldl removeAttr n.attrs } := by
  induction t generalizing n with
  | nil => rfl
  | cons hd tl ih => simp only [List.foldl_cons]; rw [ih]

theorem anchorExecuteMain_inRun_doc (st : EditorState) (id : String) (m : DecIds)
    (h : hasAttr st.selAttrs "anchorId" = true) :
    (anchorExecuteMain st id m).doc =
      mapRange (fun n => { n with attrs := inRunUpdate id m n.attrs }) st.doc
        (findStart st.doc "anchorId" (getAttr st.selAttrs "anchorId") st.selPos)
        (findEnd st.doc "anchorId" (getAttr st.selAttrs "anchorId") st.selPos) := by
  simp only [anchorExecuteMain, h, if_pos, setAttrRange, removeAttrRange]
  rw [foldl_mapRange, foldl_mapRange]
  apply mapRange_congrFn
  intro n
  rw [foldl_node_setAttr, foldl_node_removeAttr]
  rfl

theorem anchorExecuteMain_inRun_selPos (st : EditorState) (id : String) (m : DecIds)
    (h : hasAttr st.selAttrs "anchorId" = true) :
    (anchorExecuteMain st id m).selPos =
      findEnd st.doc "anchorId" (getAttr st.selAttrs "anchorId") st.selPos := by
  simp only [anchorExecuteMain, h, if_pos]

theorem getAttr_inRunUpdate_anchorId (id : String) (m : DecIds) (a : Attrs)
    (h : "anchorId" ∉ m.map Prod.fst) :
    getAttr (inRunUpdate id m a) "anchorId" = some (AttrVal.str id) := by
  unfold inRunUpdate
  rw [getAttr_foldl_removeAttr_not_mem _ _ _ (not_mem_falsy m _ h),
    getAttr_foldl_setAttr_not_mem _ _ _ _ (not_mem_truthy m _ h),
    getAttr_setAttr, if_pos rfl]

theorem getAttr_inRunUpdate_mem (id : String) (m : DecIds) (a : Attrs) (k : String) (b : Bool)
    (hnd : (m.map Prod.fst).Nodup) (hmem : (k, b) ∈ m) :
    getAttr (inRunUpdate id m a) k = if b then some (AttrVal.boo true) else none := by
  unfold inRunUpdate
  cases b with
  | true =>
      rw [getAttr_foldl_removeAttr_not_mem _ _ _ (not_mem_falsy_of_true m k hnd hmem),
        getAttr_foldl_setAttr_mem _ _ _ _ (mem_truthy_of_mem m k hmem)]
      rfl
  | false =>
      rw [getAttr_foldl_removeAttr_mem _ _ _ (mem_falsy_of_mem m k hmem)]
      rfl

theorem getAttr_inRunUpdate_other (id : String) (m : DecIds) (a : Attrs) (k : String)
    (hk : k ≠ "anchorId") (hm : k ∉ m.map Prod.fst) :
    getAttr (inRunUpdate id m a) k = getAttr a k := by
  unfold inRunUpdate
  rw [getAttr_foldl_removeAttr_not_mem _ _ _ (not_mem_falsy m _ hm),
    getAttr_foldl_setAttr_not_mem _ _ _ _ (not_mem_truthy m _ hm),
    getAttr_setAttr, if_neg (fun he => hk he.symm)]

/-! ### Lemmas about `findStart` and `findEnd` -/

theorem matchesAt_lt_length (d : Doc) (k : String) (v : Option AttrVal) (i : Nat)
    (h : matchesAt d k v i = true) : i < d.length := by
  unfold matchesAt at h
  cases hg : d.get? i with
  | none => rw [hg] at h; cases h
  | some n => exact List.get?_eq_some.mp hg |>.1

theorem findStart_le (d : Doc) (k : String) (v : Option AttrVal) (p : Nat) :
    findStart d k v p ≤ p := by
  induction p with
  | zero => exact Nat.le_refl 0
  | succ q ih =>
      unfold findStart
      by_cases h : matchesAt d k v q = true
      · simp only [h, if_pos]
        exact Nat.le_succ_of_le ih
      · simp only [h]
        simp

theorem findStart_le_of_matches (d : Doc) (k : String) (v : Option AttrVal) (a p : Nat)
    (ha : a ≤ p) (h : ∀ i, a ≤ i → i < p → matchesAt d k v i = true) :
    findStart d k v p ≤ a := by
  induction p with
  | zero =>
      have h0 : a = 0 := Nat.le_zero.mp ha
      subst h0
      exact findStart_le d k v 0
  | succ q ih =>
      by_cases hq : a = q + 1
      · exact hq ▸ findStart_le d k v (q + 1)
      · have haq : a ≤ q := by omega
        unfold findStart
        rw [if_pos (h q haq (Nat.lt_succ_self q))]
        exact ih haq (fun i hi1 hi2 => h i hi1 (Nat.lt_succ_of_lt hi2))

theorem matchesAt_of_findStart_le (d : Doc) (k : String) (v : Option AttrVal) (p i : Nat)
    (h1 : findStart d k v p ≤ i) (h2 : i < p) : matchesAt d k v i = true := by
  induction p with
  | zero => cases h2
  | succ q ih =>
      unfold findStart at h1
      by_cases hm : matchesAt d k v q = true
      · rw [if_pos hm] at h1
        by_cases hi : i = q
        · exact hi ▸ hm
        · exact ih h1 (by omega)
      · rw [if_neg hm] at h1
        omega

theorem findEndAux_ge (d : Doc) (k : String) (v : Option AttrVal) (fuel p : Nat) :
    p ≤ findEndAux d k v fuel p := by
  induction fuel generalizing p with
  | zero => exact Nat.le_refl p
  | succ n ih =>
      unfold findEndAux
      by_cases h : matchesAt d k v p = true
      · rw [if_pos h]
        exact Nat.le_of_succ_le (ih (p + 1))
      · rw [if_neg h]

theorem findEndAux_le_length (d : Doc) (k : String) (v : Option AttrVal) (fuel p : Nat)
    (h : p ≤ d.length) : findEndAux d k v fuel p ≤ d.length := by
  induction fuel generalizing p with
  | zero => exact h
  | succ n ih =>
      unfold findEndAux
      by_cases hm : matchesAt d k v p = true
      · rw [if_pos hm]
        exact ih (p + 1) (matchesAt_lt_length d k v p hm)
      · rw [if_neg hm]
        exact h

theorem le_findEndAux (d : Doc) (k : String) (v : Option AttrVal) (fuel p e0 : Nat)
    (h : ∀ i, p ≤ i → i < e0 → matchesAt d k v i = true) (hfe : e0 ≤ p + fuel) :
    e0 ≤ findEndAux d k v fuel p := by
  induction fuel generalizing p with
  | zero =>
      have h0 : findEndAux d k v 0 p = p := rfl
      omega
  | succ n ih =>
      by_cases hp : e0 ≤ p
      · exact Nat.le_trans hp (findEndAux_ge d k v (n + 1) p)
      · have hplt : p < e0 := Nat.lt_of_not_le hp
        unfold findEndAux
        rw [if_pos (h p (Nat.le_refl p) hplt)]
        exact ih (p + 1) (fun i hi1 hi2 => h i (Nat.le_of_succ_le hi1) hi2) (by omega)

theorem matchesAt_of_lt_findEndAux (d : Doc) (k : String) (v : Option AttrVal) (fuel p i : Nat)
    (h1 : p ≤ i) (h2 : i < findEndAux d k v fuel p) : matchesAt d k v i = true := by
  induction fuel generalizing p with
  | zero =>
      have h0 : findEndAux d k v 0 p = p := rfl
      omega
  | succ n ih =>
      unfold findEndAux at h2
      by_cases hm : matchesAt d k v p = true
      · rw [if_pos hm] at h2
        by_cases hi : i = p
        · exact hi ▸ hm
        · exact ih (p + 1) (by omega) h2
      · rw [if_neg hm] at h2
        omega

theorem findEnd_le_length (d : Doc) (k : String) (v : Option AttrVal) (p : Nat)
    (h : p ≤ d.length) : findEnd d k v p ≤ d.length :=
  findEndAux_le_length d k v (d.length - p) p h

theorem le_findEnd (d : Doc) (k : String) (v : Option AttrVal) (p e0 : Nat)
    (h : ∀ i, p ≤ i → i < e0 → matchesAt d k v i = true) (he : e0 ≤ d.length) :
    e0 ≤ findEnd d k v p := by
  by_cases hp : e0 ≤ p
  · exact Nat.le_trans hp (findEndAux_ge d k v (d.length - p) p)
  · exact le_findEndAux d k v (d.length - p) p e0 h (by omega)

theorem matchesAt_of_lt_findEnd (d : Doc) (k : String) (v : Option AttrVal) (p i : Nat)
    (h1 : p ≤ i) (h2 : i < findEnd d k v p) : matchesAt d k v i = true :=
  matchesAt_of_lt_findEndAux d k v (d.length - p) p i h1 h2

theorem mem_of_mem_truthy (m : DecIds) (k : String) (h : k ∈ truthyManualDecorators m) :
    (k, true) ∈ m := by
  simp only [truthyManualDecorators, List.mem_map, List.mem_filter] at h
  obtain ⟨⟨k1, b1⟩, ⟨hp, hb⟩, hfst⟩ := h
  simp only at hfst hb
  subst hfst
  rwa [show b1 = true from hb] at hp

theorem mem_truthy_or_falsy (m : DecIds) (k : String) (h : k ∈ m.map Prod.fst) :
    k ∈ truthyManualDecorators m ∨ k ∈ falsyManualDecorators m := by
  obtain ⟨⟨k1, b1⟩, hp, hfst⟩ := List.mem_map.mp h
  simp only at hfst
  subst hfst
  cases b1 with
  | true => exact Or.inl (mem_truthy_of_mem m k1 hp)
  | false => exact Or.inr (mem_falsy_of_mem m k1 hp)

theorem anchorExecuteCollapsed_doc (st : EditorState) (id : String) (m : DecIds) :
    (anchorExecuteCollapsed st id m).doc = (anchorExecuteMain st id m).doc := rfl

theorem anchorExecuteCollapsed_selPos (st : EditorState) (id : String) (m : DecIds) :
    (anchorExecuteCollapsed st id m).selPos = (anchorExecuteMain st id m).selPos := rfl

/-- C1: with a collapsed selection inside a run carrying `anchorId`,
`AnchorCommand.execute( id, toggles )` sets `anchorId := id`, sets every true
toggle and removes every false toggle on every character of the whole run
`[findStart, findEnd)` computed by `findAttributeRange` at the caret — in
particular also on the part of the run before the caret — leaves everything
outside the run unchanged, and places the collapsed selection immediately
after the updated run. -/
theorem anchorCommand_collapsed_inRun_updatesWholeRun
    (st : EditorState) (id : String) (m : DecIds)
    (hsel : hasAttr st.selAttrs "anchorId" = true)
    (hnd : (m.map Prod.fst).Nodup)
    (hanch : "anchorId" ∉ m.map Prod.fst)
    (hrun : matchesAt st.doc "anchorId" (getAttr st.selAttrs "anchorId") st.selPos = true
          ∨ matchesAt st.doc "anchorId" (getAttr st.selAttrs "anchorId") (st.selPos - 1) = true) :
    (∀ i, findStart st.doc "anchorId" (getAttr st.selAttrs "anchorId") st.selPos ≤ i →
        i < findEnd st.doc "anchorId" (getAttr st.selAttrs "anchorId") st.selPos →
        ((anchorExecuteCollapsed st id m).doc.get? i).map (fun n => getAttr n.attrs "anchorId") =
          some (some (AttrVal.str id))
        ∧ ∀ k b, (k, b) ∈ m →
            ((anchorExecuteCollapsed st id m).doc.get? i).map (fun n => getAttr n.attrs k) =
              some (if b then some (AttrVal.boo true) else none))
    ∧ (∀ i, i < findStart st.doc "anchorId" (getAttr st.selAttrs "anchorId") st.selPos ∨
          findEnd st.doc "anchorId" (getAttr st.selAttrs "anchorId") st.selPos ≤ i →
        (anchorExecuteCollapsed st id m).doc.get? i = st.doc.get? i)
    ∧ (anchorExecuteCollapsed st id m).selPos =
        findEnd st.doc "anchorId" (getAttr st.selAttrs "anchorId") st.selPos := by
  have hplen : st.selPos ≤ st.doc.length := by
    rcases hrun with h | h
    · exact Nat.le_of_lt (matchesAt_lt_length _ _ _ _ h)
    · have := matchesAt_lt_length _ _ _ _ h
      omega
  have helen : findEnd st.doc "anchorId" (getAttr st.selAttrs "anchorId") st.selPos ≤
      st.doc.length := findEnd_le_length _ _ _ _ hplen
  have hdoc := anchorExecuteMain_inRun_doc st id m hsel
  refine ⟨?_, ?_, ?_⟩
  · intro i hi1 hi2
    cases hg : st.doc.get? i with
    | none =>
        rw [List.get?_eq_none] at hg
        omega
    | some n =>
        rw [anchorExecuteCollapsed_doc, hdoc, mapRange_get?, hg]
        constructor
        · simp only [Option.map_some']
          rw [if_pos (And.intro hi1 hi2)]
          exact congrArg some (getAttr_inRunUpdate_anchorId id m n.attrs hanch)
        · intro k b hkb
          simp only [Option.map_some']
          rw [if_pos (And.intro hi1 hi2)]
          exact congrArg some (getAttr_inRunUpdate_mem id m n.attrs k b hnd hkb)
  · intro i hi
    rw [anchorExecuteCollapsed_doc, hdoc, mapRange_get?]
    have hcond : ¬ (findStart st.doc "anchorId" (getAttr st.selAttrs "anchorId") st.selPos ≤ i ∧
        i < findEnd st.doc "anchorId" (getAttr st.selAttrs "anchorId") st.selPos) := by
      rcases hi with h | h <;> omega
    cases st.doc.get? i <;> simp [hcond]
  · rw [anchorExecuteCollapsed_selPos, anchorExecuteMain_inRun_selPos st id m hsel]

/-- Witness for C1: on the run `"ab"` with `anchorId="A"` (followed by a plain
character) and the caret at offset 1, `execute("B", {anchorDec: true})`
rewrites the character at offset 0 — before the caret — to `anchorId="B"`. -/
theorem anchorCommand_collapsed_inRun_updatesWholeRun_witness :
    ((anchorExecuteCollapsed
        ⟨[⟨'a', [("anchorId", AttrVal.str "A")]⟩, ⟨'b', [("anchorId", AttrVal.str "A")]⟩,
          ⟨'c', []⟩], 1, [("anchorId", AttrVal.str "A")]⟩
        "B" [("anchorDec", true)]).doc.get? 0).map (fun n => getAttr n.attrs "anchorId") =
      some (some (AttrVal.str "B")) :=
  ((anchorCommand_collapsed_inRun_updatesWholeRun
    ⟨[⟨'a', [("anchorId", AttrVal.str "A")]⟩, ⟨'b', [("anchorId", AttrVal.str "A")]⟩,
      ⟨'c', []⟩], 1, [("anchorId", AttrVal.str "A")]⟩
    "B" [("anchorDec", true)] (by decide) (by decide) (by decide)
    (Or.inl (by decide))).1 0 (by decide) (by decide)).1

/-- C2: with a collapsed selection not carrying `anchorId` and a non-empty
`id`, `AnchorCommand.execute( id, toggles )` inserts at the caret exactly the
characters of `id`, all bearing the selection's typing attributes plus
`anchorId = id` plus every toggle given as true, and moves the selection to
the end position returned by the insert operation (`selPos + id.length`, a
character offset and hence stable under text-node merging); with `id = ""`
nothing is inserted and the document is unchanged. -/
theorem anchorCommand_collapsed_insert_spec
    (st : EditorState) (id : String) (m : DecIds)
    (hsel : hasAttr st.selAttrs "anchorId" = false) :
    (id ≠ "" →
      (anchorExecuteCollapsed st id m).doc =
        st.doc.take st.selPos ++
          id.data.map (fun c => ⟨c, insertedTextAttrs st.selAttrs id m⟩) ++
          st.doc.drop st.selPos
      ∧ (anchorExecuteCollapsed st id m).selPos = st.selPos + id.length)
    ∧ ("anchorId" ∉ m.map Prod.fst →
        ∀ k, getAttr (insertedTextAttrs st.selAttrs id m) k =
          if k = "anchorId" then some (AttrVal.str id)
          else if (k, true) ∈ m then some (AttrVal.boo true)
          else getAttr st.selAttrs k)
    ∧ (id = "" →
        (anchorExecuteCollapsed st id m).doc = st.doc
        ∧ (anchorExecuteCollapsed st id m).selPos = st.selPos) := by
  refine ⟨?_, ?_, ?_⟩
  · intro hid
    constructor
    · rw [anchorExecuteCollapsed_doc]
      simp [anchorExecuteMain, hsel, hid]
    · rw [anchorExecuteCollapsed_selPos]
      simp [anchorExecuteMain, hsel, hid]
  · intro hanch k
    unfold insertedTextAttrs
    by_cases hk : k = "anchorId"
    · subst hk
      rw [if_pos rfl,
        getAttr_foldl_setAttr_not_mem _ _ _ _ (not_mem_truthy m _ hanch),
        getAttr_setAttr, if_pos rfl]
    · rw [if_neg hk]
      by_cases hkt : (k, true) ∈ m
      · rw [if_pos hkt, getAttr_foldl_setAttr_mem _ _ _ _ (mem_truthy_of_mem m k hkt)]
      · rw [if_neg hkt,
          getAttr_foldl_setAttr_not_mem _ _ _ _ (fun hc => hkt (mem_of_mem_truthy m k hc)),
          getAttr_setAttr, if_neg (fun he => hk he.symm)]
  · intro hid
    subst hid
    constructor
    · rw [anchorExecuteCollapsed_doc]
      simp [anchorExecuteMain, hsel]
    · rw [anchorExecuteCollapsed_selPos]
      simp [anchorExecuteMain, hsel]

/-- Witness for C2: in an empty document, `execute("ab", {d1: true})` inserts
the two characters of `"ab"` carrying `anchorId="ab"` and `d1=true`. -/
theorem anchorCommand_collapsed_insert_spec_witness :
    (anchorExecuteCollapsed ⟨[], 0, []⟩ "ab" [("d1", true)]).doc =
      [⟨'a', [("d1", AttrVal.boo true), ("anchorId", AttrVal.str "ab")]⟩,
       ⟨'b', [("d1", AttrVal.boo true), ("anchorId", AttrVal.str "ab")]⟩] := by
  have h := ((anchorCommand_collapsed_insert_spec ⟨[], 0, []⟩ "ab" [("d1", true)]
    (by decide)).1 (by decide)).1
  exact h.trans (by decide)

/-- Counterexample for C4: the final cleanup loop of a collapsed
`AnchorCommand.execute` removes only `anchorId` and the decorators that occur
in `manualDecoratorIds` — not every decorator attribute.  Here the selection
sits in a run carrying the decorator attribute `anchorDeco`, and after
`execute("B", {})` the selection's typing attributes still contain
`anchorDeco`, so further typing does inherit a decorator attribute. -/
theorem anchorCommand_clearsEveryDecorator_counterexample :
    getAttr (⟨[⟨'a', [("anchorId", AttrVal.str "A"), ("anchorDeco", AttrVal.boo true)]⟩,
               ⟨'b', [("anchorId", AttrVal.str "A"), ("anchorDeco", AttrVal.boo true)]⟩],
              1, [("anchorId", AttrVal.str "A"), ("anchorDeco", AttrVal.boo true)]⟩ :
        EditorState).selAttrs "anchorDeco" = some (AttrVal.boo true)
    ∧ getAttr (anchorExecuteCollapsed
        ⟨[⟨'a', [("anchorId", AttrVal.str "A"), ("anchorDeco", AttrVal.boo true)]⟩,
          ⟨'b', [("anchorId", AttrVal.str "A"), ("anchorDeco", AttrVal.boo true)]⟩],
         1, [("anchorId", AttrVal.str "A"), ("anchorDeco", AttrVal.boo true)]⟩
        "B" []).selAttrs "anchorDeco" = some (AttrVal.boo true) := by
  decide

/-- C4 (amended): every collapsed `AnchorCommand.execute( id, toggles )`
finishes by removing `anchorId` and every decorator attribute mentioned in
`toggles` from the selection's own typing attributes, and this final step
touches only the selection attributes: the resulting document and selection
position are exactly those produced by the main branch. -/
theorem anchorCommand_collapsed_clearsMentionedSelAttrs
    (st : EditorState) (id : String) (m : DecIds) :
    (anchorExecuteCollapsed st id m).doc = (anchorExecuteMain st id m).doc
    ∧ (anchorExecuteCollapsed st id m).selPos = (anchorExecuteMain st id m).selPos
    ∧ getAttr (anchorExecuteCollapsed st id m).selAttrs "anchorId" = none
    ∧ (∀ k, k ∈ m.map Prod.fst →
        getAttr (anchorExecuteCollapsed st id m).selAttrs k = none) := by
  refine ⟨rfl, rfl, ?_, ?_⟩
  · show getAttr (removeKeys _ _) _ = none
    rw [getAttr_removeKeys]
    exact if_pos (List.mem_cons_self _ _)
  · intro k hk
    show getAttr (removeKeys _ _) _ = none
    rw [getAttr_removeKeys]
    refine if_pos (List.mem_cons_of_mem _ ?_)
    rw [List.mem_append]
    exact mem_truthy_or_falsy m k hk

/-- Witness for C4 (amended): after `execute("B", {anchorDec: false})` at a
caret in an anchored run, the selection's typing attributes contain neither
`anchorId` nor the mentioned decorator `anchorDec`. -/
theorem anchorCommand_collapsed_clearsMentionedSelAttrs_witness :
    getAttr (anchorExecuteCollapsed
        ⟨[⟨'a', [("anchorId", AttrVal.str "A"), ("anchorDec", AttrVal.boo true)]⟩],
         1, [("anchorId", AttrVal.str "A"), ("anchorDec", AttrVal.boo true)]⟩
        "B" [("anchorDec", false)]).selAttrs "anchorId" = none
    ∧ getAttr (anchorExecuteCollapsed
        ⟨[⟨'a', [("anchorId", AttrVal.str "A"), ("anchorDec", AttrVal.boo true)]⟩],
         1, [("anchorId", AttrVal.str "A"), ("anchorDec", AttrVal.boo true)]⟩
        "B" [("anchorDec", false)]).selAttrs "anchorDec" = none :=
  ⟨(anchorCommand_collapsed_clearsMentionedSelAttrs
      ⟨[⟨'a', [("anchorId", AttrVal.str "A"), ("anchorDec", AttrVal.boo true)]⟩],
       1, [("anchorId", AttrVal.str "A"), ("anchorDec", AttrVal.boo true)]⟩
      "B" [("anchorDec", false)]).2.2.1,
   (anchorCommand_collapsed_clearsMentionedSelAttrs
      ⟨[⟨'a', [("anchorId", AttrVal.str "A"), ("anchorDec", AttrVal.boo true)]⟩],
       1, [("anchorId", AttrVal.str "A"), ("anchorDec", AttrVal.boo true)]⟩
      "B" [("anchorDec", false)]).2.2.2 "anchorDec" (by decide)⟩

/-! ### Characterization of the collapsed unanchor branch -/

/-- The per-character update of `UnanchorCommand.execute` on a collapsed
selection: remove `anchorId`, then every registered decorator attribute. -/
def unanchorUpdate (registered : List String) (a : Attrs) : Attrs :=
  registered.foldl removeAttr (removeAttr a "anchorId")

theorem unanchorCollapsed_doc (st : EditorState) (reg : List String) :
    (unanchorCollapsed st reg).doc =
      mapRange (fun n => { n with attrs := unanchorUpdate reg n.attrs }) st.doc
        (findStart st.doc "anchorId" (getAttr st.selAttrs "anchorId") st.selPos)
        (findEnd st.doc "anchorId" (getAttr st.selAttrs "anchorId") st.selPos) := by
  unfold unanchorCollapsed
  simp only [findAttributeRange, removeAttrRange]
  rw [foldl_mapRange]
  apply mapRange_congrFn
  intro n
  rw [foldl_node_removeAttr]
  rfl

theorem getAttr_unanchorUpdate (reg : List String) (a : Attrs) (k : String) :
    getAttr (unanchorUpdate reg a) k =
      if k = "anchorId" ∨ k ∈ reg then none else getAttr a k := by
  unfold unanchorUpdate
  by_cases hr : k ∈ reg
  · rw [getAttr_foldl_removeAttr_mem _ _ _ hr, if_pos (Or.inr hr)]
  · rw [getAttr_foldl_removeAttr_not_mem _ _ _ hr, getAttr_removeAttr]
    by_cases hk : k = "anchorId"
    · rw [if_pos hk.symm, if_pos (Or.inl hk)]
    · rw [if_neg (fun h => hk h.symm), if_neg (fun h => h.elim hk hr)]

/-- Counterexample for C6: running `execute("B")` and then
`UnanchorCommand.execute()` directly in sequence does not restore the absence
of `anchorId`.  The anchor command ends by stripping `anchorId` from the
selection's typing attributes and placing the caret after the run, so the
subsequent unanchor command looks up `findAttributeRange` with value
`undefined` at a caret after the run and removes nothing from the run: the
character at offset 0 carried `anchorId` before and still carries
`anchorId="B"` after the round trip. -/
theorem anchor_unanchor_roundTrip_counterexample :
    getAttr ((⟨[⟨'a', [("anchorId", AttrVal.str "A")]⟩, ⟨'b', [("anchorId", AttrVal.str "A")]⟩,
        ⟨'c', []⟩, ⟨'d', []⟩], 1, [("anchorId", AttrVal.str "A")]⟩ :
        EditorState).doc.getD 0 ⟨'?', []⟩).attrs "anchorId" = some (AttrVal.str "A")
    ∧ getAttr ((unanchorCollapsed
        (anchorExecuteCollapsed
          ⟨[⟨'a', [("anchorId", AttrVal.str "A")]⟩, ⟨'b', [("anchorId", AttrVal.str "A")]⟩,
            ⟨'c', []⟩, ⟨'d', []⟩], 1, [("anchorId", AttrVal.str "A")]⟩
          "B" []) []).doc.getD 0 ⟨'?', []⟩).attrs "anchorId" = some (AttrVal.str "B") := by
  decide

/-- C6 (amended): the round trip restores the absence of `anchorId` on the run
provided the selection is placed back inside the updated run before
unanchoring: if after `execute(V)` the caret `q` lies in the updated run
`[findStart, findEnd)` and the selection again carries `anchorId = V`, then
`UnanchorCommand.execute()` leaves every character of the run without
`anchorId`, and no attribute other than `anchorId` and the registered manual
decorator attributes changes on any character of the document. -/
theorem anchor_unanchor_roundTrip_amended
    (st : EditorState) (V0 : AttrVal) (V : String) (q : Nat) (a2 : Attrs) (reg : List String)
    (hsel : getAttr st.selAttrs "anchorId" = some V0)
    (hrun : matchesAt st.doc "anchorId" (some V0) st.selPos = true
          ∨ matchesAt st.doc "anchorId" (some V0) (st.selPos - 1) = true)
    (hq1 : findStart st.doc "anchorId" (some V0) st.selPos ≤ q)
    (hq2 : q ≤ findEnd st.doc "anchorId" (some V0) st.selPos)
    (hresel : getAttr a2 "anchorId" = some (AttrVal.str V)) :
    (∀ i, findStart st.doc "anchorId" (some V0) st.selPos ≤ i →
        i < findEnd st.doc "anchorId" (some V0) st.selPos →
        ((unanchorCollapsed ⟨(anchorExecuteCollapsed st V []).doc, q, a2⟩ reg).doc.get? i).map
            (fun n => getAttr n.attrs "anchorId") = some none)
    ∧ (∀ i k, k ≠ "anchorId" → k ∉ reg →
        ((unanchorCollapsed ⟨(anchorExecuteCollapsed st V []).doc, q, a2⟩ reg).doc.get? i).map
            (fun n => getAttr n.attrs k) =
          (st.doc.get? i).map (fun n => getAttr n.attrs k)) := by
  have hsel' : hasAttr st.selAttrs "anchorId" = true := by
    rw [hasAttr, hsel]
    rfl
  have hplen : st.selPos ≤ st.doc.length := by
    rcases hrun with h | h
    · exact Nat.le_of_lt (matchesAt_lt_length _ _ _ _ h)
    · have := matchesAt_lt_length _ _ _ _ h
      omega
  have helen : findEnd st.doc "anchorId" (some V0) st.selPos ≤ st.doc.length :=
    findEnd_le_length _ _ _ _ hplen
  have hd1 : (anchorExecuteCollapsed st V []).doc =
      mapRange (fun n => { n with attrs := inRunUpdate V [] n.attrs }) st.doc
        (findStart st.doc "anchorId" (some V0) st.selPos)
        (findEnd st.doc "anchorId" (some V0) st.selPos) := by
    rw [anchorExecuteCollapsed_doc, anchorExecuteMain_inRun_doc st V [] hsel', hsel]
  have hlen1 : (anchorExecuteCollapsed st V []).doc.length = st.doc.length := by
    rw [hd1, mapRange_length]
  have hd1get : ∀ i, (anchorExecuteCollapsed st V []).doc.get? i =
      (st.doc.get? i).map (fun n =>
        if findStart st.doc "anchorId" (some V0) st.selPos ≤ i ∧
            i < findEnd st.doc "anchorId" (some V0) st.selPos
        then { n with attrs := inRunUpdate V [] n.attrs } else n) := by
    intro i
    rw [hd1, mapRange_get?]
  have hmatch : ∀ i, findStart st.doc "anchorId" (some V0) st.selPos ≤ i →
      i < findEnd st.doc "anchorId" (some V0) st.selPos →
      matchesAt (anchorExecuteCollapsed st V []).doc "anchorId" (some (AttrVal.str V)) i = true := by
    intro i h1 h2
    unfold matchesAt
    rw [hd1get i]
    cases hg : st.doc.get? i with
    | none =>
        rw [List.get?_eq_none] at hg
        omega
    | some n =>
        simp only [Option.map_some']
        rw [if_pos (And.intro h1 h2)]
        simp [getAttr_inRunUpdate_anchorId V [] n.attrs (by simp [List.map])]
  have hs2 : findStart (anchorExecuteCollapsed st V []).doc "anchorId" (getAttr a2 "anchorId") q ≤
      findStart st.doc "anchorId" (some V0) st.selPos := by
    rw [hresel]
    exact findStart_le_of_matches _ _ _ _ q hq1
      (fun i h1 h2 => hmatch i h1 (Nat.lt_of_lt_of_le h2 hq2))
  have he2 : findEnd st.doc "anchorId" (some V0) st.selPos ≤
      findEnd (anchorExecuteCollapsed st V []).doc "anchorId" (getAttr a2 "anchorId") q := by
    rw [hresel]
    exact le_findEnd _ _ _ q _ (fun i h1 h2 => hmatch i (Nat.le_trans hq1 h1) h2)
      (by rw [hlen1]; exact helen)
  have hd2get : ∀ i, (unanchorCollapsed ⟨(anchorExecuteCollapsed st V []).doc, q, a2⟩ reg).doc.get? i =
      ((anchorExecuteCollapsed st V []).doc.get? i).map (fun n =>
        if findStart (anchorExecuteCollapsed st V []).doc "anchorId" (getAttr a2 "anchorId") q ≤ i ∧
            i < findEnd (anchorExecuteCollapsed st V []).doc "anchorId" (getAttr a2 "anchorId") q
        then { n with attrs := unanchorUpdate reg n.attrs } else n) := by
    intro i
    rw [unanchorCollapsed_doc ⟨(anchorExecuteCollapsed st V []).doc, q, a2⟩ reg, mapRange_get?]
  constructor
  · intro i h1 h2
    rw [hd2get i, hd1get i]
    cases hg : st.doc.get? i with
    | none =>
        rw [List.get?_eq_none] at hg
        omega
    | some n =>
        simp only [Option.map_some']
        rw [if_pos (And.intro h1 h2),
          if_pos (And.intro (Nat.le_trans hs2 h1) (Nat.lt_of_lt_of_le h2 he2))]
        simp only [Option.map_some', Option.some.injEq]
        rw [getAttr_unanchorUpdate, if_pos (Or.inl rfl)]
  · intro i k hk hreg
    rw [hd2get i, hd1get i]
    cases hg : st.doc.get? i with
    | none => rfl
    | some n =>
        simp only [Option.map_some', Option.some.injEq]
        by_cases hc1 : findStart st.doc "anchorId" (some V0) st.selPos ≤ i ∧
            i < findEnd st.doc "anchorId" (some V0) st.selPos
        · rw [if_pos hc1]
          by_cases hc2 : findStart (anchorExecuteCollapsed st V []).doc "anchorId"
              (getAttr a2 "anchorId") q ≤ i ∧
              i < findEnd (anchorExecuteCollapsed st V []).doc "anchorId" (getAttr a2 "anchorId") q
          · rw [if_pos hc2]
            show getAttr (unanchorUpdate reg (inRunUpdate V [] n.attrs)) k = getAttr n.attrs k
            rw [getAttr_unanchorUpdate, if_neg (fun h => h.elim hk hreg),
              getAttr_inRunUpdate_other V [] n.attrs k hk (by simp [List.map])]
          · rw [if_neg hc2]
            show getAttr (inRunUpdate V [] n.attrs) k = getAttr n.attrs k
            exact getAttr_inRunUpdate_other V [] n.attrs k hk (by simp [List.map])
        · rw [if_neg hc1]
          by_cases hc2 : findStart (anchorExecuteCollapsed st V []).doc "anchorId"
              (getAttr a2 "anchorId") q ≤ i ∧
              i < findEnd (anchorExecuteCollapsed st V []).doc "anchorId" (getAttr a2 "anchorId") q
          · rw [if_pos hc2]
            show getAttr (unanchorUpdate reg n.attrs) k = getAttr n.attrs k
            rw [getAttr_unanchorUpdate, if_neg (fun h => h.elim hk hreg)]
          · rw [if_neg hc2]

/-- Witness for C6 (amended): after updating the run `"ab"` to `anchorId="B"`
and placing the caret back at offset 1 with the selection carrying
`anchorId="B"`, unanchoring leaves the character at offset 0 with no
`anchorId` attribute. -/
theorem anchor_unanchor_roundTrip_amended_witness :
    ((unanchorCollapsed
        ⟨(anchorExecuteCollapsed
            ⟨[⟨'a', [("anchorId", AttrVal.str "A")]⟩, ⟨'b', [("anchorId", AttrVal.str "A")]⟩,
              ⟨'c', []⟩], 1, [("anchorId", AttrVal.str "A")]⟩ "B" []).doc,
          1, [("anchorId", AttrVal.str "B")]⟩ []).doc.get? 0).map
      (fun n => getAttr n.attrs "anchorId") = some none :=
  (anchor_unanchor_roundTrip_amended
    ⟨[⟨'a', [("anchorId", AttrVal.str "A")]⟩, ⟨'b', [("anchorId", AttrVal.str "A")]⟩,
      ⟨'c', []⟩], 1, [("anchorId", AttrVal.str "A")]⟩
    (AttrVal.str "A") "B" 1 [("anchorId", AttrVal.str "B")] []
    (by decide) (Or.inl (by decide)) (by decide) (by decide) (by decide)).1
    0 (by decide) (by decide)

theorem applySelWOps_removeAnchorOps (a : Attrs) (registered : List String) :
    applySelWOps a (removeAnchorAttributesFromSelectionOps registered) =
      removeKeys a ("anchorId" :: registered) := by
  rw [applySelWOps_eq_removeKeys]
  congr 1
  show _ :: List.map _ (registered.map SelWOp.removeSelAttr) = _
  rw [List.map_map]
  congr 1
  induction registered with
  | nil => rfl
  | cons hd tl ih => simp [Function.comp, ih]

/-- C7: the post-insert selection fixup clears `anchorId` and the registered
manual-decorator attributes from the selection's typing attributes exactly
when the selection carries `anchorId`, a node exists immediately before the
selection anchor, that node carries `anchorId`, and the node immediately
after the anchor (if any) does not carry `anchorId`; in every other case the
selection attributes are left untouched. -/
theorem insertContent_fixer_spec (d : Doc) (p : Nat) (a : Attrs) (registered : List String) :
    insertContentSelectionFixer d p a registered =
      if (hasAttr a "anchorId"
          && (nodeBeforeAttrs d p).elim false (fun nb => hasAttr nb "anchorId")
          && !((nodeAfterAttrs d p).elim false (fun na => hasAttr na "anchorId"))) = true
      then removeKeys a ("anchorId" :: registered)
      else a := by
  unfold insertContentSelectionFixer
  by_cases h1 : hasAttr a "anchorId" = true
  · cases hnb : nodeBeforeAttrs d p with
    | none => simp [h1]
    | some nb =>
        by_cases h2 : hasAttr nb "anchorId" = true
        · cases hna : nodeAfterAttrs d p with
          | none => simp [h1, h2, applySelWOps_removeAnchorOps]
          | some na =>
              by_cases h3 : hasAttr na "anchorId" = true <;>
                simp [h1, h2, h3, applySelWOps_removeAnchorOps]
        · simp [h1, h2]
  · simp [h1]

/-- C8: in the delete-after-anchor fixup, the `deleteContent` callback itself
performs no selection mutation; the clearing of `anchorId` and the registered
decorator attributes is emitted as an enqueued change block, and that block
is emitted exactly when the observed key was Backspace and the pre-deletion
`shouldPreserveAttributes` flag is false; the flag is set exactly when the
selection carries a truthy `anchorId` at a position that the run found by
`findAttributeRange` strictly contains or whose end equals the position. -/
theorem deleteContentAfterAnchor_fixer_spec (domKeyCode : Nat) (st : EditorState)
    (registered : List String) :
    (deleteContentSequence domKeyCode st registered).2.1 = []
    ∧ (deleteContentSequence domKeyCode st registered).2.2 =
        (if domKeyCode = keyCodes_backspace ∧ shouldPreserveAfterDelete st = false
         then [removeAnchorAttributesFromSelectionOps registered] else [])
    ∧ (shouldPreserveAfterDelete st = true ↔
        (jsTruthy (getAttr st.selAttrs "anchorId") = true
         ∧ (findStart st.doc "anchorId" (getAttr st.selAttrs "anchorId") st.selPos < st.selPos
              ∧ st.selPos < findEnd st.doc "anchorId" (getAttr st.selAttrs "anchorId") st.selPos
            ∨ st.selPos = findEnd st.doc "anchorId" (getAttr st.selAttrs "anchorId") st.selPos))) := by
  refine ⟨?_, ?_, ?_⟩
  · unfold deleteContentSequence onDeleteContentLow onDeleteContentHigh onDeleteKey
    by_cases h1 : (domKeyCode == keyCodes_backspace) = true <;>
      by_cases h2 : shouldPreserveAfterDelete st = true <;> simp [h1, h2]
  · unfold deleteContentSequence onDeleteContentLow onDeleteContentHigh onDeleteKey
    by_cases h1 : (domKeyCode == keyCodes_backspace) = true <;>
      by_cases h2 : shouldPreserveAfterDelete st = true <;>
        simp_all [beq_iff_eq]
  · unfold shouldPreserveAfterDelete findAttributeRange
    by_cases h1 : jsTruthy (getAttr st.selAttrs "anchorId") = true <;>
      simp [h1, beq_iff_eq]

/-- Witness for C8's behavioural corners: a Backspace (code 8) with the
selection not carrying `anchorId` enqueues exactly one clearing block while
performing nothing directly, and a forward Delete (code 46) in the same state
enqueues nothing. -/
theorem deleteContentAfterAnchor_fixer_spec_witness :
    (deleteContentSequence 8 ⟨[⟨'a', [("anchorId", AttrVal.str "A")]⟩], 1, []⟩
        ["anchorDec"]).2.2 = [[SelWOp.removeSelAttr "anchorId", SelWOp.removeSelAttr "anchorDec"]]
    ∧ (deleteContentSequence 46 ⟨[⟨'a', [("anchorId", AttrVal.str "A")]⟩], 1, []⟩
        ["anchorDec"]).2.2 = [] := by
  constructor
  · have h := (deleteContentAfterAnchor_fixer_spec 8
      ⟨[⟨'a', [("anchorId", AttrVal.str "A")]⟩], 1, []⟩ ["anchorDec"]).2.1
    rw [h, if_pos (by decide)]
    rfl
  · have h := (deleteContentAfterAnchor_fixer_spec 46
      ⟨[⟨'a', [("anchorId", AttrVal.str "A")]⟩], 1, []⟩ ["anchorDec"]).2.1
    rw [h, if_neg (by decide)]

theorem listHasPre_append (a b l : List Char) :
    listHasPre (a ++ b) l = (listHasPre a l && listHasPre b (l.drop a.length)) := by
  induction a generalizing l with
  | nil => simp [listHasPre]
  | cons x xs ih =>
      cases l with
      | nil => simp [listHasPre]
      | cons y ys => simp [listHasPre, ih, Bool.and_assoc]

/-- C9: with `addTargetToExternalAnchors` enabled, exactly one built-in
automatic decorator is registered (in front of the configured ones); its
attribute set is `target=_blank, rel=noopener noreferrer` and its callback
accepts precisely the values starting with `http://`, `https://` or `//`;
with the option disabled, no built-in decorator is registered. -/
theorem automaticDecorators_external_spec (defs : List AutoDecorator) :
    enableAutomaticDecorators true defs = externalAnchorDecorator :: defs
    ∧ enableAutomaticDecorators false defs = defs
    ∧ externalAnchorDecorator.attributes = [("target", "_blank"), ("rel", "noopener noreferrer")]
    ∧ (∀ url : String, externalAnchorDecorator.callback url = true ↔
        (strHasPre "http://" url = true ∨ strHasPre "https://" url = true
          ∨ strHasPre "//" url = true)) := by
  refine ⟨rfl, rfl, rfl, ?_⟩
  intro url
  show EXTERNAL_LINKS_REGEXP_test url = true ↔ _
  have e1 : strHasPre "https://" url =
      (strHasPre "https:" url && listHasPre "//".data (url.data.drop 6)) := by
    show listHasPre ("https://".data) url.data = _
    rw [show ("https://".data) = "https:".data ++ "//".data from by decide, listHasPre_append]
    rfl
  have e2 : strHasPre "http://" url =
      (strHasPre "http:" url && listHasPre "//".data (url.data.drop 5)) := by
    show listHasPre ("http://".data) url.data = _
    rw [show ("http://".data) = "http:".data ++ "//".data from by decide, listHasPre_append]
    rfl
  unfold EXTERNAL_LINKS_REGEXP_test
  rw [← e1, ← e2]
  simp only [Bool.or_eq_true]
  tauto

/-! ### Lemmas about the non-collapsed range computation -/

theorem isRangeToUpdate_iff (r : BRange) (allowed : List BRange) :
    isRangeToUpdate r allowed = true ↔ ∀ ar ∈ allowed, containsRange ar r = false := by
  unfold isRangeToUpdate
  rw [Bool.not_eq_true']
  rw [← Bool.not_eq_true (allowed.any fun ar => containsRange ar r)]
  simp [List.any_eq_true]

theorem mem_allowedRangesAux (l : BDoc) (j a b : Nat) (r : BRange) :
    r ∈ allowedRangesAux l j a b ↔
      ∃ i blk, l.get? i = some blk ∧ a ≤ j + i ∧ j + i < b ∧ blk.allows = true ∧
        r = BRange.top (j + i) (j + i + 1) := by
  induction l generalizing j with
  | nil => simp [allowedRangesAux]
  | cons blk0 rest ih =>
      simp only [allowedRangesAux, List.mem_append]
      rw [ih (j + 1)]
      constructor
      · rintro (hin | ⟨i, blk, hget, h1, h2, h3, h4⟩)
        · by_cases hc : a ≤ j ∧ j < b ∧ blk0.allows = true
          · rw [if_pos hc] at hin
            have hr := List.mem_singleton.mp hin
            exact ⟨0, blk0, rfl, by omega, by omega, hc.2.2, by simpa using hr⟩
          · rw [if_neg hc] at hin
            cases hin
        · have hji : j + 1 + i = j + (i + 1) := by omega
          rw [hji] at h1 h2 h4
          exact ⟨i + 1, blk, hget, h1, h2, h3, h4⟩
      · rintro ⟨i, blk, hget, h1, h2, h3, h4⟩
        cases i with
        | zero =>
            left
            have hblk : blk0 = blk := by
              have : some blk0 = some blk := hget
              exact Option.some.injEq _ _ ▸ this ▸ rfl
            rw [if_pos ⟨by omega, by omega, by rw [hblk]; exact h3⟩]
            simp only [List.mem_singleton]
            simpa using h4
        | succ i' =>
            right
            have hji : j + 1 + i' = j + (i' + 1) := by omega
            exact ⟨i', blk, hget, by omega, by omega, h3, by rw [hji]; exact h4⟩

theorem mem_rangesToUpdate_iff (d : BDoc) (a b : Nat) (r : BRange) :
    r ∈ rangesToUpdate d a b ↔
      (r ∈ allowedRanges d a b ∨
        (r ∈ getValidRangesTop d a b ∧
          ∀ ar ∈ allowedRanges d a b, containsRange ar r = false)) := by
  unfold rangesToUpdate
  simp only [List.mem_append, List.mem_filter, isRangeToUpdate_iff]

/-- C3: for a non-collapsed block-aligned selection over `[a, b)`,
`AnchorCommand.execute` applies the attributes over exactly the whole-element
ranges of the selected blocks on which the schema allows `anchorId`, plus the
schema-valid ranges of the selection not (strictly) contained in one of those
whole-element ranges; and on a selected anchor-eligible image element the
attribute lands on the element itself, never on the inline text inside it. -/
theorem anchorCommand_nonCollapsed_ranges_spec (d : BDoc) (a b : Nat) (r : BRange) :
    (r ∈ rangesToUpdate d a b ↔
      ((∃ i blk, d.get? i = some blk ∧ a ≤ i ∧ i < b ∧ blk.allows = true ∧
          r = BRange.top i (i + 1))
        ∨ (r ∈ getValidRangesTop d a b ∧
            ∀ ar ∈ allowedRanges d a b, containsRange ar r = false)))
    ∧ anchorExecuteNonCollapsed [⟨"image", [], true, [⟨'x', [], true⟩]⟩] 0 1 "Y" [] =
        [⟨"image", [("anchorId", AttrVal.str "Y")], true, [⟨'x', [], true⟩]⟩] := by
  constructor
  · rw [mem_rangesToUpdate_iff]
    have hall : r ∈ allowedRanges d a b ↔
        ∃ i blk, d.get? i = some blk ∧ a ≤ i ∧ i < b ∧ blk.allows = true ∧
          r = BRange.top i (i + 1) := by
      unfold allowedRanges
      rw [mem_allowedRangesAux]
      simp only [Nat.zero_add]
    rw [hall]
  · decide

/-! ### Lemmas about range application on block documents -/

theorem applyOnBRange_comp (d : BDoc) (r : BRange) (f g : Attrs → Attrs) :
    applyOnBRange (applyOnBRange d r f) r g = applyOnBRange d r (fun a => g (f a)) := by
  cases r with
  | top a b =>
      simp only [applyOnBRange]
      rw [mapRange_comp]
  | inner j a b =>
      simp only [applyOnBRange]
      rw [mapRange_comp]
      apply mapRange_congrFn
      intro blk
      simp only
      rw [mapRange_comp]

theorem applyOnBRange_length (d : BDoc) (r : BRange) (f : Attrs → Attrs) :
    (applyOnBRange d r f).length = d.length := by
  cases r <;> (simp only [applyOnBRange]; rw [mapRange_length])

theorem foldl_applyOnBRange (ks : List String) (h : String → Attrs → Attrs) (d : BDoc)
    (r : BRange) (f0 : Attrs → Attrs) :
    ks.foldl (fun d k => applyOnBRange d r (h k)) (applyOnBRange d r f0) =
      applyOnBRange d r (fun a => ks.foldl (fun y k => h k y) (f0 a)) := by
  induction ks generalizing f0 with
  | nil => rfl
  | cons k1 rest ih =>
      simp only [List.foldl_cons]
      rw [applyOnBRange_comp]
      exact ih _

theorem anchorRangeStep_eq (id : String) (m : DecIds) (d : BDoc) (r : BRange) :
    anchorRangeStep id (truthyManualDecorators m) (falsyManualDecorators m) d r =
      applyOnBRange d r (inRunUpdate id m) := by
  simp only [anchorRangeStep, setAttrOnBRange, removeAttrOnBRange]
  rw [foldl_applyOnBRange (truthyManualDecorators m)
      (fun k a => setAttr a k (AttrVal.boo true)) d r
      (fun a => setAttr a "anchorId" (AttrVal.str id)),
    foldl_applyOnBRange (falsyManualDecorators m) (fun k a => removeAttr a k) d r]
  rfl

theorem unanchorRangeStep_eq (registered : List String) (d : BDoc) (r : BRange) :
    unanchorRangeStep registered d r = applyOnBRange d r (unanchorUpdate registered) := by
  simp only [unanchorRangeStep, removeAttrOnBRange]
  rw [foldl_applyOnBRange registered (fun k a => removeAttr a k) d r
      (fun a => removeAttr a "anchorId")]
  rfl

theorem map_getAttr_mapRange (f : Attrs → Attrs) (cs : List InlineItem) (a b : Nat)
    (k : String) (hf : ∀ x, getAttr (f x) k = getAttr x k) :
    (mapRange (fun c => { c with attrs := f c.attrs }) cs a b).map
        (fun c => getAttr c.attrs k) =
      cs.map (fun c => getAttr c.attrs k) := by
  induction cs generalizing a b with
  | nil => rfl
  | cons c rest ih =>
      simp only [mapRange, List.map_cons]
      by_cases hc : a = 0 ∧ 0 < b <;> simp [hc, ih, hf]

theorem applyOnBRange_block_attr (d : BDoc) (r : BRange) (f : Attrs → Attrs) (i : Nat)
    (k : String) (hf : ∀ x, getAttr (f x) k = getAttr x k) :
    ((applyOnBRange d r f).get? i).map (fun blk => getAttr blk.attrs k) =
      (d.get? i).map (fun blk => getAttr blk.attrs k) := by
  cases r with
  | top a b =>
      simp only [applyOnBRange]
      rw [mapRange_get?]
      cases d.get? i with
      | none => rfl
      | some blk =>
          simp only [Option.map_some']
          by_cases hc : a ≤ i ∧ i < b <;> simp [hc, hf]
  | inner j a b =>
      simp only [applyOnBRange]
      rw [mapRange_get?]
      cases d.get? i with
      | none => rfl
      | some blk =>
          simp only [Option.map_some']
          by_cases hc : j ≤ i ∧ i < j + 1 <;> simp [hc]

theorem applyOnBRange_children_attr (d : BDoc) (r : BRange) (f : Attrs → Attrs) (i : Nat)
    (k : String) (hf : ∀ x, getAttr (f x) k = getAttr x k) :
    ((applyOnBRange d r f).get? i).map
        (fun blk => blk.children.map (fun c => getAttr c.attrs k)) =
      (d.get? i).map (fun blk => blk.children.map (fun c => getAttr c.attrs k)) := by
  cases r with
  | top a b =>
      simp only [applyOnBRange]
      rw [mapRange_get?]
      cases d.get? i with
      | none => rfl
      | some blk =>
          simp only [Option.map_some']
          by_cases hc : a ≤ i ∧ i < b <;> simp [hc]
  | inner j a b =>
      simp only [applyOnBRange]
      rw [mapRange_get?]
      cases d.get? i with
      | none => rfl
      | some blk =>
          simp only [Option.map_some']
          by_cases hc : j ≤ i ∧ i < j + 1 <;> simp [hc, map_getAttr_mapRange f blk.children a b k hf]

theorem foldl_anchorRangeStep_block_attr (rs : List BRange) (id : String) (m : DecIds)
    (d : BDoc) (i : Nat) (k : String) (hk : k ≠ "anchorId") (hm : k ∉ m.map Prod.fst) :
    ((rs.foldl (anchorRangeStep id (truthyManualDecorators m) (falsyManualDecorators m)) d).get? i).map
        (fun blk => getAttr blk.attrs k) =
      (d.get? i).map (fun blk => getAttr blk.attrs k) := by
  induction rs generalizing d with
  | nil => rfl
  | cons r rest ih =>
      simp only [List.foldl_cons]
      rw [ih]
      rw [anchorRangeStep_eq]
      exact applyOnBRange_block_attr d r _ i k
        (fun x => getAttr_inRunUpdate_other id m x k hk hm)

theorem foldl_anchorRangeStep_children_attr (rs : List BRange) (id : String) (m : DecIds)
    (d : BDoc) (i : Nat) (k : String) (hk : k ≠ "anchorId") (hm : k ∉ m.map Prod.fst) :
    ((rs.foldl (anchorRangeStep id (truthyManualDecorators m) (falsyManualDecorators m)) d).get? i).map
        (fun blk => blk.children.map (fun c => getAttr c.attrs k)) =
      (d.get? i).map (fun blk => blk.children.map (fun c => getAttr c.attrs k)) := by
  induction rs generalizing d with
  | nil => rfl
  | cons r rest ih =>
      simp only [List.foldl_cons]
      rw [ih]
      rw [anchorRangeStep_eq]
      exact applyOnBRange_children_attr d r _ i k
        (fun x => getAttr_inRunUpdate_other id m x k hk hm)

/-- C10: `AnchorCommand.execute( id, manualDecoratorIds )` never modifies an
attribute whose name is neither `anchorId` nor a key of `manualDecoratorIds`:
in the collapsed in-run branch every character keeps its value for such an
attribute; in the collapsed insert branch the pre-existing characters are kept
verbatim and the inserted characters carry the selection's own value for it;
in the non-collapsed branch every block element and every inline child keeps
its value for it. -/
theorem anchorCommand_framesUnmentionedDecorators
    (id : String) (m : DecIds) (k : String)
    (hk : k ≠ "anchorId") (hm : k ∉ m.map Prod.fst) :
    (∀ st : EditorState, hasAttr st.selAttrs "anchorId" = true →
      ∀ i, ((anchorExecuteCollapsed st id m).doc.get? i).map (fun n => getAttr n.attrs k) =
        (st.doc.get? i).map (fun n => getAttr n.attrs k))
    ∧ (∀ st : EditorState, hasAttr st.selAttrs "anchorId" = false →
        getAttr (insertedTextAttrs st.selAttrs id m) k = getAttr st.selAttrs k
        ∧ (anchorExecuteCollapsed st id m).doc =
            (if id ≠ "" then
              st.doc.take st.selPos ++
                id.data.map (fun c => ⟨c, insertedTextAttrs st.selAttrs id m⟩) ++
                st.doc.drop st.selPos
             else st.doc))
    ∧ (∀ (d : BDoc) (a b : Nat) (i : Nat),
        ((anchorExecuteNonCollapsed d a b id m).get? i).map
            (fun blk => getAttr blk.attrs k) =
          (d.get? i).map (fun blk => getAttr blk.attrs k)
        ∧ ((anchorExecuteNonCollapsed d a b id m).get? i).map
            (fun blk => blk.children.map (fun c => getAttr c.attrs k)) =
          (d.get? i).map (fun blk => blk.children.map (fun c => getAttr c.attrs k))) := by
  refine ⟨?_, ?_, ?_⟩
  · intro st hsel i
    rw [anchorExecuteCollapsed_doc, anchorExecuteMain_inRun_doc st id m hsel, mapRange_get?]
    cases st.doc.get? i with
    | none => rfl
    | some n =>
        simp only [Option.map_some']
        by_cases hc : findStart st.doc "anchorId" (getAttr st.selAttrs "anchorId") st.selPos ≤ i ∧
            i < findEnd st.doc "anchorId" (getAttr st.selAttrs "anchorId") st.selPos
        · rw [if_pos hc]
          exact congrArg some (getAttr_inRunUpdate_other id m n.attrs k hk hm)
        · rw [if_neg hc]
  · intro st hsel
    constructor
    · unfold insertedTextAttrs
      rw [getAttr_foldl_setAttr_not_mem _ _ _ _ (not_mem_truthy m _ hm),
        getAttr_setAttr, if_neg (fun he => hk he.symm)]
    · by_cases hid : id = ""
      · rw [if_neg (fun h => h hid), anchorExecuteCollapsed_doc]
        subst hid
        simp [anchorExecuteMain, hsel]
      · rw [if_pos hid, anchorExecuteCollapsed_doc]
        simp [anchorExecuteMain, hsel, hid]
  · intro d a b i
    unfold anchorExecuteNonCollapsed
    exact ⟨foldl_anchorRangeStep_block_attr _ id m d i k hk hm,
      foldl_anchorRangeStep_children_attr _ id m d i k hk hm⟩

/-- Witness for C10: executing `execute("B", {other: true})` over a run whose
character carries the unmentioned decorator `anchorDeco` leaves that
attribute's value on the character unchanged. -/
theorem anchorCommand_framesUnmentionedDecorators_witness :
    ((anchorExecuteCollapsed
        ⟨[⟨'a', [("anchorId", AttrVal.str "A"), ("anchorDeco", AttrVal.boo true)]⟩],
         1, [("anchorId", AttrVal.str "A")]⟩ "B" [("other", true)]).doc.get? 0).map
      (fun n => getAttr n.attrs "anchorDeco") =
    (((⟨[⟨'a', [("anchorId", AttrVal.str "A"), ("anchorDeco", AttrVal.boo true)]⟩],
        1, [("anchorId", AttrVal.str "A")]⟩ : EditorState)).doc.get? 0).map
      (fun n => getAttr n.attrs "anchorDeco") :=
  (anchorCommand_framesUnmentionedDecorators "B" [("other", true)] "anchorDeco"
    (by decide) (by decide)).1
    ⟨[⟨'a', [("anchorId", AttrVal.str "A"), ("anchorDeco", AttrVal.boo true)]⟩],
     1, [("anchorId", AttrVal.str "A")]⟩ (by decide) 0

/-! ### Lemmas about `UnanchorCommand` on a non-collapsed selection -/

/-- Whether a range covers the top-level block at index `i` (shallowly). -/
def coversTopB (r : BRange) (i : Nat) : Prop :=
  match r with
  | BRange.top a b => a ≤ i ∧ i < b
  | BRange.inner _ _ _ => False

/-- Whether a range covers child `j` of the block at index `i`. -/
def coversInnerB (r : BRange) (i j : Nat) : Prop :=
  match r with
  | BRange.top _ _ => False
  | BRange.inner i' a b => i' = i ∧ a ≤ j ∧ j < b

theorem unanchorRangeStep_block_none (reg : List String) (d : BDoc) (r : BRange)
    (i : Nat) (k : String)
    (h : (d.get? i).map (fun blk => getAttr blk.attrs k) = (d.get? i).map (fun _ => none)) :
    ((unanchorRangeStep reg d r).get? i).map (fun blk => getAttr blk.attrs k) =
      ((unanchorRangeStep reg d r).get? i).map (fun _ => none) := by
  rw [unanchorRangeStep_eq]
  cases r with
  | top a b =>
      simp only [applyOnBRange]
      rw [mapRange_get?]
      cases hg : d.get? i with
      | none => rfl
      | some blk =>
          rw [hg] at h
          simp only [Option.map_some', Option.some.injEq] at h ⊢
          by_cases hc : a ≤ i ∧ i < b
          · rw [if_pos hc]
            rw [getAttr_unanchorUpdate]
            by_cases hk : k = "anchorId" ∨ k ∈ reg
            · rw [if_pos hk]
            · rw [if_neg hk]
              exact h
          · rw [if_neg hc]
            exact h
  | inner j a b =>
      simp only [applyOnBRange]
      rw [mapRange_get?]
      cases hg : d.get? i with
      | none => rfl
      | some blk =>
          rw [hg] at h
          simp only [Option.map_some', Option.some.injEq] at h ⊢
          by_cases hc : j ≤ i ∧ i < j + 1
          · rw [if_pos hc]
            exact h
          · rw [if_neg hc]
            exact h

theorem unanchorRangeStep_block_covered (reg : List String) (d : BDoc) (r : BRange)
    (i : Nat) (k : String) (hk : k = "anchorId" ∨ k ∈ reg) (hcov : coversTopB r i) :
    ((unanchorRangeStep reg d r).get? i).map (fun blk => getAttr blk.attrs k) =
      ((unanchorRangeStep reg d r).get? i).map (fun _ => none) := by
  rw [unanchorRangeStep_eq]
  cases r with
  | top a b =>
      simp only [applyOnBRange]
      rw [mapRange_get?]
      cases hg : d.get? i with
      | none => rfl
      | some blk =>
          simp only [coversTopB] at hcov
          simp only [Option.map_some']
          rw [if_pos hcov, getAttr_unanchorUpdate, if_pos hk]
  | inner j a b =>
      simp only [coversTopB] at hcov

theorem foldl_unanchor_block_none (rs : List BRange) (reg : List String) (d : BDoc)
    (i : Nat) (k : String)
    (h : (d.get? i).map (fun blk => getAttr blk.attrs k) = (d.get? i).map (fun _ => none)) :
    ((rs.foldl (unanchorRangeStep reg) d).get? i).map (fun blk => getAttr blk.attrs k) =
      ((rs.foldl (unanchorRangeStep reg) d).get? i).map (fun _ => none) := by
  induction rs generalizing d with
  | nil => exact h
  | cons r rest ih =>
      simp only [List.foldl_cons]
      exact ih _ (unanchorRangeStep_block_none reg d r i k h)

theorem foldl_unanchor_block_covered (rs : List BRange) (reg : List String) (d : BDoc)
    (i : Nat) (k : String) (hk : k = "anchorId" ∨ k ∈ reg)
    (hcov : ∃ r ∈ rs, coversTopB r i) :
    ((rs.foldl (unanchorRangeStep reg) d).get? i).map (fun blk => getAttr blk.attrs k) =
      ((rs.foldl (unanchorRangeStep reg) d).get? i).map (fun _ => none) := by
  induction rs generalizing d with
  | nil => obtain ⟨r, hr, _⟩ := hcov; cases hr
  | cons r rest ih =>
      obtain ⟨r', hr', hcov'⟩ := hcov
      simp only [List.foldl_cons]
      rcases List.mem_cons.mp hr' with he | ht
      · subst he
        exact foldl_unanchor_block_none rest reg _ i k
          (unanchorRangeStep_block_covered reg d r' i k hk hcov')
      · exact ih _ ⟨r', ht, hcov'⟩

/-- Child `j` of the block at index `i`, when both exist. -/
def childAt (d : BDoc) (i j : Nat) : Option InlineItem :=
  (d.get? i).bind (fun blk => blk.children.get? j)

theorem unanchorRangeStep_child_none (reg : List String) (d : BDoc) (r : BRange)
    (i j : Nat) (k : String)
    (h : (childAt d i j).map (fun c => getAttr c.attrs k) =
      (childAt d i j).map (fun _ => none)) :
    (childAt (unanchorRangeStep reg d r) i j).map (fun c => getAttr c.attrs k) =
      (childAt (unanchorRangeStep reg d r) i j).map (fun _ => none) := by
  rw [unanchorRangeStep_eq]
  cases r with
  | top a b =>
      unfold childAt at h ⊢
      simp only [applyOnBRange]
      rw [mapRange_get?]
      cases hg : d.get? i with
      | none => rfl
      | some blk =>
          rw [hg] at h
          simp only [Option.map_some', Option.some_bind] at h ⊢
          by_cases hc : a ≤ i ∧ i < b
          · rw [if_pos hc]
            exact h
          · rw [if_neg hc]
            exact h
  | inner i' a b =>
      unfold childAt at h ⊢
      simp only [applyOnBRange]
      rw [mapRange_get?]
      cases hg : d.get? i with
      | none => rfl
      | some blk =>
          rw [hg] at h
          simp only [Option.map_some', Option.some_bind] at h ⊢
          by_cases hc : i' ≤ i ∧ i < i' + 1
          · rw [if_pos hc]
            simp only
            rw [mapRange_get?]
            cases hcg : blk.children.get? j with
            | none => rfl
            | some c =>
                rw [hcg] at h
                simp only [Option.map_some', Option.some.injEq] at h ⊢
                by_cases hcj : a ≤ j ∧ j < b
                · rw [if_pos hcj]
                  simp only
                  rw [getAttr_unanchorUpdate]
                  by_cases hk : k = "anchorId" ∨ k ∈ reg
                  · rw [if_pos hk]
                  · rw [if_neg hk]
                    exact h
                · rw [if_neg hcj]
                  exact h
          · rw [if_neg hc]
            exact h

theorem unanchorRangeStep_child_covered (reg : List String) (d : BDoc) (r : BRange)
    (i j : Nat) (k : String) (hk : k = "anchorId" ∨ k ∈ reg) (hcov : coversInnerB r i j) :
    (childAt (unanchorRangeStep reg d r) i j).map (fun c => getAttr c.attrs k) =
      (childAt (unanchorRangeStep reg d r) i j).map (fun _ => none) := by
  rw [unanchorRangeStep_eq]
  cases r with
  | top a b => simp only [coversInnerB] at hcov
  | inner i' a b =>
      obtain ⟨hii, hj1, hj2⟩ := hcov
      unfold childAt
      simp only [applyOnBRange]
      rw [mapRange_get?]
      cases hg : d.get? i with
      | none => rfl
      | some blk =>
          simp only [Option.map_some', Option.some_bind]
          rw [if_pos (show i' ≤ i ∧ i < i' + 1 by omega)]
          simp only
          rw [mapRange_get?]
          cases hcg : blk.children.get? j with
          | none => rfl
          | some c =>
              simp only [Option.map_some', Option.some.injEq]
              rw [if_pos ⟨hj1, hj2⟩]
              simp only
              rw [getAttr_unanchorUpdate, if_pos hk]

theorem foldl_unanchor_child_none (rs : List BRange) (reg : List String) (d : BDoc)
    (i j : Nat) (k : String)
    (h : (childAt d i j).map (fun c => getAttr c.attrs k) =
      (childAt d i j).map (fun _ => none)) :
    (childAt (rs.foldl (unanchorRangeStep reg) d) i j).map (fun c => getAttr c.attrs k) =
      (childAt (rs.foldl (unanchorRangeStep reg) d) i j).map (fun _ => none) := by
  induction rs generalizing d with
  | nil => exact h
  | cons r rest ih =>
      simp only [List.foldl_cons]
      exact ih _ (unanchorRangeStep_child_none reg d r i j k h)

theorem foldl_unanchor_child_covered (rs : List BRange) (reg : List String) (d : BDoc)
    (i j : Nat) (k : String) (hk : k = "anchorId" ∨ k ∈ reg)
    (hcov : ∃ r ∈ rs, coversInnerB r i j) :
    (childAt (rs.foldl (unanchorRangeStep reg) d) i j).map (fun c => getAttr c.attrs k) =
      (childAt (rs.foldl (unanchorRangeStep reg) d) i j).map (fun _ => none) := by
  induction rs generalizing d with
  | nil => obtain ⟨r, hr, _⟩ := hcov; cases hr
  | cons r rest ih =>
      obtain ⟨r', hr', hcov'⟩ := hcov
      simp only [List.foldl_cons]
      rcases List.mem_cons.mp hr' with he | ht
      · subst he
        exact foldl_unanchor_child_none rest reg _ i j k
          (unanchorRangeStep_child_covered reg d r' i j k hk hcov')
      · exact ih _ ⟨r', ht, hcov'⟩

theorem foldl_unanchor_block_attr_other (rs : List BRange) (reg : List String) (d : BDoc)
    (i : Nat) (k : String) (hk : k ≠ "anchorId") (hr : k ∉ reg) :
    ((rs.foldl (unanchorRangeStep reg) d).get? i).map (fun blk => getAttr blk.attrs k) =
      (d.get? i).map (fun blk => getAttr blk.attrs k) := by
  induction rs generalizing d with
  | nil => rfl
  | cons r rest ih =>
      simp only [List.foldl_cons]
      rw [ih]
      rw [unanchorRangeStep_eq]
      refine applyOnBRange_block_attr d r _ i k (fun x => ?_)
      rw [getAttr_unanchorUpdate, if_neg (fun h => h.elim hk hr)]

theorem foldl_unanchor_children_attr_other (rs : List BRange) (reg : List String) (d : BDoc)
    (i : Nat) (k : String) (hk : k ≠ "anchorId") (hr : k ∉ reg) :
    ((rs.foldl (unanchorRangeStep reg) d).get? i).map
        (fun blk => blk.children.map (fun c => getAttr c.attrs k)) =
      (d.get? i).map (fun blk => blk.children.map (fun c => getAttr c.attrs k)) := by
  induction rs generalizing d with
  | nil => rfl
  | cons r rest ih =>
      simp only [List.foldl_cons]
      rw [ih]
      rw [unanchorRangeStep_eq]
      refine applyOnBRange_children_attr d r _ i k (fun x => ?_)
      rw [getAttr_unanchorUpdate, if_neg (fun h => h.elim hk hr)]

/-- C5: `UnanchorCommand.execute()` — one `model.change` block — removes
`anchorId` and every registered manual-decorator attribute, on a collapsed
selection from the whole run `[findStart, findEnd)` found by
`findAttributeRange` at the caret with the selection's current `anchorId`
value (leaving every character outside the run, and every other attribute,
unchanged), and on a non-collapsed selection from every schema-valid range of
the selection (leaving every attribute not in the removal set unchanged on
blocks and children alike). -/
theorem unanchorCommand_execute_spec (registered : List String) :
    (∀ (st : EditorState) (i : Nat),
      (findStart st.doc "anchorId" (getAttr st.selAttrs "anchorId") st.selPos ≤ i →
        i < findEnd st.doc "anchorId" (getAttr st.selAttrs "anchorId") st.selPos →
        ∀ k, (k = "anchorId" ∨ k ∈ registered) →
          ((unanchorCollapsed st registered).doc.get? i).map (fun n => getAttr n.attrs k) =
            (st.doc.get? i).map (fun _ => none))
      ∧ ((i < findStart st.doc "anchorId" (getAttr st.selAttrs "anchorId") st.selPos ∨
          findEnd st.doc "anchorId" (getAttr st.selAttrs "anchorId") st.selPos ≤ i) →
          (unanchorCollapsed st registered).doc.get? i = st.doc.get? i)
      ∧ (∀ k, k ≠ "anchorId" → k ∉ registered →
          ((unanchorCollapsed st registered).doc.get? i).map (fun n => getAttr n.attrs k) =
            (st.doc.get? i).map (fun n => getAttr n.attrs k)))
    ∧ (∀ (d : BDoc) (a b i j : Nat) (k : String),
        ((k = "anchorId" ∨ k ∈ registered) →
          ((∃ r ∈ getValidRangesTop d a b, coversTopB r i) →
            ((unanchorNonCollapsed d a b registered).get? i).map
                (fun blk => getAttr blk.attrs k) =
              ((unanchorNonCollapsed d a b registered).get? i).map (fun _ => none))
          ∧ ((∃ r ∈ getValidRangesTop d a b, coversInnerB r i j) →
              (childAt (unanchorNonCollapsed d a b registered) i j).map
                  (fun c => getAttr c.attrs k) =
                (childAt (unanchorNonCollapsed d a b registered) i j).map (fun _ => none)))
        ∧ (k ≠ "anchorId" → k ∉ registered →
            ((unanchorNonCollapsed d a b registered).get? i).map
                (fun blk => getAttr blk.attrs k) =
              (d.get? i).map (fun blk => getAttr blk.attrs k)
            ∧ ((unanchorNonCollapsed d a b registered).get? i).map
                (fun blk => blk.children.map (fun c => getAttr c.attrs k)) =
              (d.get? i).map (fun blk => blk.children.map (fun c => getAttr c.attrs k)))) := by
  constructor
  · intro st i
    have hget : ∀ i', (unanchorCollapsed st registered).doc.get? i' =
        (st.doc.get? i').map (fun n =>
          if findStart st.doc "anchorId" (getAttr st.selAttrs "anchorId") st.selPos ≤ i' ∧
              i' < findEnd st.doc "anchorId" (getAttr st.selAttrs "anchorId") st.selPos
          then { n with attrs := unanchorUpdate registered n.attrs } else n) := by
      intro i'
      rw [unanchorCollapsed_doc st registered, mapRange_get?]
    refine ⟨?_, ?_, ?_⟩
    · intro h1 h2 k hk
      rw [hget i]
      cases st.doc.get? i with
      | none => rfl
      | some n =>
          simp only [Option.map_some']
          rw [if_pos (And.intro h1 h2)]
          exact congrArg some ((getAttr_unanchorUpdate registered n.attrs k).trans (if_pos hk))
    · intro hout
      rw [hget i]
      have hcond : ¬ (findStart st.doc "anchorId" (getAttr st.selAttrs "anchorId") st.selPos ≤ i ∧
          i < findEnd st.doc "anchorId" (getAttr st.selAttrs "anchorId") st.selPos) := by
        rcases hout with h | h <;> omega
      cases st.doc.get? i <;> simp [hcond]
    · intro k hk hr
      rw [hget i]
      cases st.doc.get? i with
      | none => rfl
      | some n =>
          simp only [Option.map_some']
          by_cases hc : findStart st.doc "anchorId" (getAttr st.selAttrs "anchorId") st.selPos ≤ i ∧
              i < findEnd st.doc "anchorId" (getAttr st.selAttrs "anchorId") st.selPos
          · rw [if_pos hc]
            exact congrArg some
              ((getAttr_unanchorUpdate registered n.attrs k).trans
                (if_neg (fun h => h.elim hk hr)))
          · rw [if_neg hc]
  · intro d a b i j k
    constructor
    · intro hk
      constructor
      · intro hcov
        unfold unanchorNonCollapsed
        exact foldl_unanchor_block_covered _ registered d i k hk hcov
      · intro hcov
        unfold unanchorNonCollapsed
        exact foldl_unanchor_child_covered _ registered d i j k hk hcov
    · intro hk hr
      unfold unanchorNonCollapsed
      exact ⟨foldl_unanchor_block_attr_other _ registered d i k hk hr,
        foldl_unanchor_children_attr_other _ registered d i k hk hr⟩

/-- Witness for C5: unanchoring at a caret inside the run `"ab"` with
`anchorId="A"` removes `anchorId` from the character at offset 0. -/
theorem unanchorCommand_execute_spec_witness :
    ((unanchorCollapsed
        ⟨[⟨'a', [("anchorId", AttrVal.str "A")]⟩, ⟨'b', [("anchorId", AttrVal.str "A")]⟩,
          ⟨'c', []⟩], 1, [("anchorId", AttrVal.str "A")]⟩
        ["anchorDec"]).doc.get? 0).map (fun n => getAttr n.attrs "anchorId") = some none := by
  have h := (((unanchorCommand_execute_spec ["anchorDec"]).1
    ⟨[⟨'a', [("anchorId", AttrVal.str "A")]⟩, ⟨'b', [("anchorId", AttrVal.str "A")]⟩,
      ⟨'c', []⟩], 1, [("anchorId", AttrVal.str "A")]⟩ 0).1
    (by decide) (by decide) "anchorId" (Or.inl rfl))
  exact h.trans (by decide)
